import Mathlib

/-!
Verification development for the company-research-agent pipeline.

The Python sources are shallowly embedded: dictionaries become association
lists in insertion order (Python dicts preserve insertion order), strings are
`String` or `List Char`, float relevance scores are modelled as `Rat` (the
code only ever compares them), and every external service (web search,
content extraction, reranking, language model) is an explicit oracle
parameter.  Rational constants are written with explicit numerator and
denominator constructors so that they reduce inside the kernel.
-/

namespace CompanyResearch

/-! ## URL model

Embeds `normalize_url` from `backend/utils/references.py` and the URL
cleaning step of `Curator.curate_data` in `backend/nodes/curator.py`.  Both
rely on `urllib.parse.urlparse` / `geturl`; the relevant fragment of the
CPython 3.11 implementation (`urlsplit` / `urlunsplit`, with query and
fragment replaced by the empty string) is modelled here on `List Char`.
The model assumes URLs free of ASCII control characters, spaces, tabs and
square brackets, for which the stdlib strip/remove steps and the IPv6
bracket check are no-ops. -/

/-- Characters allowed in a URL scheme (stdlib `scheme_chars`). -/
def isSchemeChar (c : Char) : Bool :=
  c.isAlpha || c.isDigit || c = '+' || c = '-' || c = '.'

/-- Characters that terminate the network-location part (stdlib `_splitnetloc`). -/
def isNetlocEnd (c : Char) : Bool :=
  c = '/' || c = '?' || c = '#'

/-- Start of the query or fragment part of a URL. -/
def isQueryOrFrag (c : Char) : Bool :=
  c = '?' || c = '#'

/-- Schemes for which `urlunsplit` inserts a netloc separator
(stdlib `uses_netloc`, nonempty entries; the empty scheme is handled by the
truthiness test at the use site). -/
def usesNetloc (s : List Char) : Bool :=
  [ "ftp", "http", "gopher", "nntp", "telnet", "imap", "wais", "file", "mms",
    "https", "shttp", "snews", "prospero", "rtsp", "rtsps", "rtspu", "rsync",
    "svn", "svn+ssh", "sftp", "nfs", "git", "git+ssh", "ws", "wss"
  ].any (fun t => t.toList = s)

/-- Scheme detection of `urlsplit`: a scheme is recognised when the first
colon has index at least 1, the first character is an ASCII letter and all
characters before the colon are scheme characters.  Returns the (lowercased)
scheme and the remainder. -/
def splitScheme (l : List Char) : List Char × List Char :=
  match l.findIdx? (· = ':') with
  | some i =>
    let pre := l.take i
    if 0 < i ∧ (l.headD ' ').isAlpha ∧ pre.all isSchemeChar then
      (pre.map Char.toLower, l.drop (i + 1))
    else ([], l)
  | none => ([], l)

/-- Netloc detection of `urlsplit`: when the remainder starts with `//`, the
netloc extends to the first `/`, `?` or `#`. -/
def splitNetloc (l : List Char) : List Char × List Char :=
  if l.take 2 = ['/', '/'] then
    ((l.drop 2).takeWhile (fun c => !isNetlocEnd c),
     (l.drop 2).dropWhile (fun c => !isNetlocEnd c))
  else ([], l)

/-- Removing the query and the fragment (`_replace(query='', fragment='')`)
amounts to cutting the post-netloc part at the first `?` or `#`:
`urlsplit` splits the fragment at the first `#` and then the query at the
first `?` of what precedes it. -/
def dropQueryFrag (l : List Char) : List Char :=
  l.takeWhile (fun c => !isQueryOrFrag c)

/-- `urlunsplit` with empty query and fragment (CPython 3.11):
`if netloc or (scheme and scheme in uses_netloc and url[:2] != '//'):`
re-attaches `//`, then the scheme is prepended. -/
def unsplitNoQF (scheme netloc path : List Char) : List Char :=
  let core :=
    if netloc ≠ [] ∨ (scheme ≠ [] ∧ usesNetloc scheme ∧ path.take 2 ≠ ['/', '/']) then
      let p := if path ≠ [] ∧ path.headD ' ' ≠ '/' then '/' :: path else path
      ['/', '/'] ++ netloc ++ p
    else path
  if scheme ≠ [] then scheme ++ [':'] ++ core else core

/-- `urlparse(url)._replace(query='', fragment='').geturl()`, the cleaning
step used by the curator on each raw URL key. -/
def pyCleanUrl (u : List Char) : List Char :=
  let sr := splitScheme u
  let nr := splitNetloc sr.2
  unsplitNoQF sr.1 nr.1 (dropQueryFrag nr.2)

/-- Prefix test used by `normalize_url`:
`url.startswith(('http://', 'https://'))`. -/
def hasHttpScheme (u : List Char) : Bool :=
  "http://".toList.isPrefixOf u || "https://".toList.isPrefixOf u

/-- `'https://' + url` when the scheme prefix is missing. -/
def ensureScheme (u : List Char) : List Char :=
  if hasHttpScheme u then u else "https://".toList ++ u

/-- Python `rstrip('/')`: remove every trailing slash. -/
def rstripSlashes (u : List Char) : List Char :=
  (u.reverse.dropWhile (· = '/')).reverse

/-- `normalize_url` from `backend/utils/references.py`: empty input maps to
the empty string; otherwise the scheme is ensured, query and fragment are
removed through `urlparse` / `geturl`, and trailing slashes are stripped. -/
def normalizeUrlChars (u : List Char) : List Char :=
  if u = [] then [] else rstripSlashes (pyCleanUrl (ensureScheme u))

/-- String-level wrapper for `normalize_url`. -/
def normalizeUrl (s : String) : String :=
  ⟨normalizeUrlChars s.toList⟩

/-- The cleaning in `Curator.curate_data` parses the original URL and strips
query and fragment; the `urljoin('https://', url)` fallback in the source
rebinds a local variable that the subsequent `parsed._replace` does not
read, so the cleaned key comes from the original URL unchanged. -/
def cleanUrl (s : String) : String :=
  ⟨pyCleanUrl s.toList⟩

/-- Canonical shape of a URL as the spec describes it: an explicit
`http://` or `https://` scheme, a nonempty host, no query, no fragment and
no trailing slash. -/
def isCanonicalUrl (u : List Char) : Bool :=
  hasHttpScheme u &&
  (let r := if "http://".toList.isPrefixOf u then u.drop 7 else u.drop 8
   decide (r ≠ []) && !isNetlocEnd (r.headD ' ') &&
   r.all (fun c => !isQueryOrFrag c) && decide (u.getLastD ' ' ≠ '/'))

/-! ### Supporting lemmas for the URL model -/

theorem dropWhile_head_false {p : Char → Bool} :
    ∀ {l x : List Char} {c : Char}, l.dropWhile p = c :: x → p c = false := by
  intro l
  induction l with
  | nil => intro x c h; simp [List.dropWhile] at h
  | cons a as ih =>
    intro x c h
    rw [List.dropWhile_cons] at h
    by_cases hpa : p a = true
    · exact ih (by simpa [hpa] using h)
    · simp [hpa] at h
      obtain ⟨rfl, -⟩ := h
      simpa using hpa

theorem takeWhile_eq_self_of_all {p : Char → Bool} {l : List Char}
    (h : ∀ c ∈ l, p c = true) : l.takeWhile p = l := by
  induction l with
  | nil => rfl
  | cons a as ih =>
    rw [List.takeWhile_cons, if_pos (h a (List.mem_cons_self a as))]
    rw [ih fun c hc => h c (List.mem_cons_of_mem a hc)]

theorem rstripSlashes_eq_self {l : List Char} (h : l.getLastD ' ' ≠ '/') :
    rstripSlashes l = l := by
  unfold rstripSlashes
  cases hrev : l.reverse with
  | nil =>
    simp_all [List.reverse_eq_nil_iff]
  | cons c cs =>
    have hc : c ≠ '/' := by
      have hgl : l.getLastD ' ' = c := by
        rw [List.getLastD_eq_getLast?, List.getLast?_eq_head?_reverse, hrev]
        rfl
      rw [hgl] at h
      exact h
    rw [List.dropWhile_cons, if_neg (by simpa using hc)]
    rw [← hrev, List.reverse_reverse]

/-- Under the canonical hypotheses, cleaning the URL rebuilds it exactly:
the scheme, the nonempty netloc and the query-free path reassemble into the
input. -/
theorem pyCleanUrl_canonical {s r : List Char}
    (hs : s = "http".toList ∨ s = "https".toList)
    (h1 : r ≠ []) (h2 : isNetlocEnd (r.headD ' ') = false)
    (h3 : ∀ c ∈ r, isQueryOrFrag c = false) :
    pyCleanUrl (s ++ ':' :: '/' :: '/' :: r) = s ++ ':' :: '/' :: '/' :: r := by
  have hq : ∀ c ∈ r.dropWhile (fun c => !isNetlocEnd c), isQueryOrFrag c = false :=
    fun c hc => h3 c ((List.dropWhile_sublist _).subset hc)
  have hnl : r.takeWhile (fun c => !isNetlocEnd c) ≠ [] := by
    cases r with
    | nil => exact absurd rfl h1
    | cons a as =>
      rw [List.takeWhile_cons, if_pos (by simpa using h2)]
      simp
  have hpath : dropQueryFrag (r.dropWhile (fun c => !isNetlocEnd c)) =
      r.dropWhile (fun c => !isNetlocEnd c) :=
    takeWhile_eq_self_of_all fun c hc => by simpa using hq c hc
  have hfix : ¬ (r.dropWhile (fun c => !isNetlocEnd c) ≠ [] ∧
      (r.dropWhile (fun c => !isNetlocEnd c)).headD ' ' ≠ '/') := by
    cases hd : r.dropWhile (fun c => !isNetlocEnd c) with
    | nil => simp
    | cons d ds =>
      have hde : isNetlocEnd d = true := by
        have := dropWhile_head_false hd
        simpa using this
      have hdq : isQueryOrFrag d = false :=
        hq d (by rw [hd]; exact List.mem_cons_self d ds)
      have hdslash : d = '/' := by
        simp only [isNetlocEnd, Bool.or_eq_true, decide_eq_true_eq] at hde
        simp only [isQueryOrFrag, Bool.or_eq_false_iff, decide_eq_false_iff_not] at hdq
        tauto
      simp [hdslash]
  obtain rfl | rfl := hs
  · have hsc : splitScheme ("http".toList ++ ':' :: '/' :: '/' :: r) =
        ("http".toList, ['/', '/'] ++ r) := rfl
    have hnlc : splitNetloc (['/', '/'] ++ r) =
        (r.takeWhile (fun c => !isNetlocEnd c), r.dropWhile (fun c => !isNetlocEnd c)) := rfl
    simp only [pyCleanUrl, hsc, hnlc, hpath, unsplitNoQF]
    rw [if_pos (Or.inl hnl), if_neg hfix]
    rw [if_pos (by simp)]
    simp [List.takeWhile_append_dropWhile]
  · have hsc : splitScheme ("https".toList ++ ':' :: '/' :: '/' :: r) =
        ("https".toList, ['/', '/'] ++ r) := rfl
    have hnlc : splitNetloc (['/', '/'] ++ r) =
        (r.takeWhile (fun c => !isNetlocEnd c), r.dropWhile (fun c => !isNetlocEnd c)) := rfl
    simp only [pyCleanUrl, hsc, hnlc, hpath, unsplitNoQF]
    rw [if_pos (Or.inl hnl), if_neg hfix]
    rw [if_pos (by simp)]
    simp [List.takeWhile_append_dropWhile]

/-- Normalization returns a canonical URL unchanged. -/
theorem normalizeUrlChars_eq_self {s r : List Char}
    (hs : s = "http".toList ∨ s = "https".toList)
    (h1 : r ≠ []) (h2 : isNetlocEnd (r.headD ' ') = false)
    (h3 : ∀ c ∈ r, isQueryOrFrag c = false)
    (h4 : (s ++ ':' :: '/' :: '/' :: r).getLastD ' ' ≠ '/') :
    normalizeUrlChars (s ++ ':' :: '/' :: '/' :: r) = s ++ ':' :: '/' :: '/' :: r := by
  have hne : s ++ ':' :: '/' :: '/' :: r ≠ [] := by
    obtain rfl | rfl := hs <;> simp
  have hhs : hasHttpScheme (s ++ ':' :: '/' :: '/' :: r) = true := by
    unfold hasHttpScheme
    obtain rfl | rfl := hs
    · have : "http://".toList.isPrefixOf ("http://".toList ++ r) = true := by
        rw [List.isPrefixOf_iff_prefix]; exact List.prefix_append _ _
      exact Bool.or_eq_true_iff.mpr (Or.inl this)
    · have : "https://".toList.isPrefixOf ("https://".toList ++ r) = true := by
        rw [List.isPrefixOf_iff_prefix]; exact List.prefix_append _ _
      exact Bool.or_eq_true_iff.mpr (Or.inr this)
  unfold normalizeUrlChars ensureScheme
  rw [if_neg hne, if_pos hhs, pyCleanUrl_canonical hs h1 h2 h3]
  exact rstripSlashes_eq_self h4

/-- C9 (amended): `normalize_url` is the identity on canonical URLs — a
URL with explicit `http` or `https` scheme, nonempty host, no query, no
fragment and no trailing slash — and is therefore idempotent at every such
URL.  Unrestricted idempotence fails (see the counterexample). -/
theorem normalize_url_idempotent_on_canonical {u : List Char}
    (h : isCanonicalUrl u = true) :
    normalizeUrlChars u = u ∧
      normalizeUrlChars (normalizeUrlChars u) = normalizeUrlChars u := by
  unfold isCanonicalUrl at h
  rw [Bool.and_eq_true] at h
  obtain ⟨hsch, hrest⟩ := h
  have hsch' := hsch
  unfold hasHttpScheme at hsch'
  rw [Bool.or_eq_true] at hsch'
  rcases hsch' with hp | hp
  · obtain ⟨r, rfl⟩ := List.isPrefixOf_iff_prefix.mp hp
    have hcond : "http://".toList.isPrefixOf ("http://".toList ++ r) = true := by
      rw [List.isPrefixOf_iff_prefix]; exact List.prefix_append _ _
    have hdrop : ("http://".toList ++ r).drop 7 = r := by
      have := List.drop_left "http://".toList r
      simp only [String.toList] at this
      exact this
    simp only [hcond, if_true, hdrop, Bool.and_eq_true, decide_eq_true_eq,
      Bool.not_eq_true'] at hrest
    obtain ⟨⟨⟨h1, h2⟩, h3⟩, h4⟩ := hrest
    have h3' : ∀ c ∈ r, isQueryOrFrag c = false := by
      intro c hc
      have := List.all_eq_true.mp h3 c hc
      simp only [Bool.not_eq_true'] at this
      exact this
    have heq : "http://".toList ++ r = "http".toList ++ ':' :: '/' :: '/' :: r := rfl
    rw [heq] at h4 ⊢
    have hfix := normalizeUrlChars_eq_self (Or.inl rfl) h1 h2 h3' h4
    exact ⟨hfix, by rw [hfix, hfix]⟩
  · obtain ⟨r, rfl⟩ := List.isPrefixOf_iff_prefix.mp hp
    have hcond : "http://".toList.isPrefixOf ("https://".toList ++ r) = false := rfl
    have hdrop : ("https://".toList ++ r).drop 8 = r := by
      have := List.drop_left "https://".toList r
      simp only [String.toList] at this
      exact this
    simp only [hcond, if_false, Bool.false_eq_true, hdrop, Bool.and_eq_true,
      decide_eq_true_eq, Bool.not_eq_true'] at hrest
    obtain ⟨⟨⟨h1, h2⟩, h3⟩, h4⟩ := hrest
    have h3' : ∀ c ∈ r, isQueryOrFrag c = false := by
      intro c hc
      have := List.all_eq_true.mp h3 c hc
      simp only [Bool.not_eq_true'] at this
      exact this
    have heq : "https://".toList ++ r = "https".toList ++ ':' :: '/' :: '/' :: r := rfl
    rw [heq] at h4 ⊢
    have hfix := normalizeUrlChars_eq_self (Or.inr rfl) h1 h2 h3' h4
    exact ⟨hfix, by rw [hfix, hfix]⟩

/-- C9 witness: the canonical URL `https://acme.example/page` is a fixed
point of normalization, hence idempotent there. -/
theorem normalize_url_idempotent_on_canonical_witness :
    isCanonicalUrl "https://acme.example/page".toList = true ∧
      normalizeUrlChars "https://acme.example/page".toList =
        "https://acme.example/page".toList :=
  ⟨by decide, (normalize_url_idempotent_on_canonical (by decide)).1⟩

/-- C9 counterexample: on the input `https://` normalization is not
idempotent — the first pass yields `https:`, the second `https://https:`. -/
theorem normalize_url_not_idempotent :
    normalizeUrlChars (normalizeUrlChars "https://".toList) ≠
      normalizeUrlChars "https://".toList := by
  decide

/-! ## Documents and scores

Embeds the document dictionaries passed between the researcher, curator and
enricher stages.  A document is the record built in
`BaseResearcher.search_single_query`, optionally extended by the curator
with a `doc_type` and an `evaluation` record and by the enricher with
`raw_content`. -/

/-- The 0.25 Tavily-score pre-filter of `Curator.evaluate_documents`
(written with explicit numerator and denominator so the kernel can
compute with it). -/
def tavilyThreshold : Rat := ⟨1, 4, by decide, by decide⟩

/-- The 0.3 rerank-relevance threshold of `Curator.evaluate_documents`
and of the dictionary comprehension in `Curator.curate_data`. -/
def rerankThreshold : Rat := ⟨3, 10, by decide, by decide⟩

/-- The 0.4 threshold that the specification attributes to curation. -/
def specThreshold : Rat := ⟨2, 5, by decide, by decide⟩

/-- The `evaluation` record attached to curated documents. -/
structure Evaluation where
  overall_score : Rat
  tavily_score : Rat
  query : String
  formatted_content : String
deriving DecidableEq, Repr

/-- A document dictionary. `raw_content` and `doc_type` are absent (`none`)
until a stage adds them; `evaluation` is added by curation. -/
structure Doc where
  title : String
  content : String
  query : String
  url : String
  source : String
  score : Rat
  raw_content : Option String
  doc_type : Option String
  evaluation : Option Evaluation
deriving DecidableEq, Repr

/-- Python truthiness chain
`content = doc.get('content') or doc.get('raw_content', '')`. -/
def contentOf (d : Doc) : String :=
  if d.content ≠ "" then d.content else d.raw_content.getD ""

/-- `Curator.format_document`: optional `Title:` part, then the content
truncated to 1500 characters with an ellipsis, joined by blank lines. -/
def formatDocument (d : Doc) : String :=
  let titleParts := if d.title ≠ "" then ["Title: " ++ d.title] else []
  let c := contentOf d
  let contentParts :=
    if c ≠ "" then
      ["Content: " ++ (if 1500 < c.length then c.take 1500 ++ "..." else c)]
    else []
  String.intercalate "\n\n" (titleParts ++ contentParts)

/-- The document returned by `Curator.evaluate_documents` for a kept
document: the original dictionary plus the `evaluation` record. -/
def withEval (d : Doc) (score tav : Rat) (q fd : String) : Doc :=
  { d with evaluation := some ⟨score, tav, q, fd⟩ }

/-! ## Curator (`backend/nodes/curator.py`)

The Cohere rerank service is an oracle `rerank : String → String → Rat`
mapping the query of a document and its formatted text to a relevance
score (`rerank-v3.5` is called with a single document and `top_n=1`, so a
single score comes back).  The model assumes the rerank calls succeed; on
an exception the source discards all evaluations of the category. -/

/-- `Curator.evaluate_documents`: documents without content are dropped,
then each document with Tavily score at least 0.25 is reranked against its
own query and kept when the rerank score is at least 0.3. -/
def evaluateDocuments (rerank : String → String → Rat) (docs : List Doc) :
    List Doc :=
  if docs = [] then []
  else
    let validDocs := docs.filter (fun d => contentOf d ≠ "")
    if validDocs = [] then []
    else
      validDocs.foldl (fun acc d =>
        let tavilyScore := d.score
        if tavilyThreshold ≤ tavilyScore then
          let specificQuery := d.query
          let fd := formatDocument d
          let s := rerank specificQuery fd
          if rerankThreshold ≤ s then
            acc ++ [withEval d s tavilyScore specificQuery fd]
          else acc
        else acc) []

/-- One step of the survival decision of `evaluate_documents`, as an
`Option`; `evaluateDocuments` is its `filterMap` (proved below). -/
def evalStep (rerank : String → String → Rat) (d : Doc) : Option Doc :=
  if contentOf d ≠ "" ∧ tavilyThreshold ≤ d.score ∧
      rerankThreshold ≤ rerank d.query (formatDocument d) then
    some (withEval d (rerank d.query (formatDocument d)) d.score d.query
      (formatDocument d))
  else none

/-- URL normalization and deduplication at the head of
`Curator.curate_data`: keys are cleaned, the first occurrence of a cleaned
key wins, and the document gets its `url` updated and a `doc_type`. -/
def dedupClean (dt : String) (data : List (String × Doc)) :
    List (String × Doc) :=
  data.foldl (fun acc kv =>
    let clean := cleanUrl kv.1
    if (acc.lookup clean).isSome then acc
    else acc ++ [(clean, { kv.2 with url := clean, doc_type := some dt })]) []

/-- `doc['evaluation']['overall_score']` (curated documents always carry
the record; absent evaluations default to 0). -/
def overallOf (d : Doc) : Rat :=
  (d.evaluation.map Evaluation.overall_score).getD 0

/-- Descending comparison on evaluation scores, for the per-category sort. -/
def docGe (a b : String × Doc) : Prop :=
  overallOf b.2 ≤ overallOf a.2

instance : DecidableRel docGe := fun a b =>
  inferInstanceAs (Decidable (overallOf b.2 ≤ overallOf a.2))

instance : IsTotal (String × Doc) docGe :=
  ⟨fun a b => le_total (overallOf b.2) (overallOf a.2)⟩

instance : IsTrans (String × Doc) docGe :=
  ⟨fun _ _ _ hab hbc => le_trans hbc hab⟩

/-- Python `sorted(..., key=score, reverse=True)` is a stable descending
sort; `List.insertionSort` with `docGe` has the same stable semantics. -/
def sortByScoreDesc (l : List (String × Doc)) : List (String × Doc) :=
  List.insertionSort docGe l

/-- The per-category body of `Curator.curate_data`: returns the curated
dictionary (or `none` when the category is skipped and the state key is
never written) together with the `(url, score)` contributions to the
reference pool.  Note the `zip(urls, evaluated_docs)` of the source, which
pairs the cleaned keys positionally with the filtered evaluation list. -/
def curateCategory (rerank : String → String → Rat) (dt : String)
    (data : List (String × Doc)) :
    Option (List (String × Doc)) × List (String × Rat) :=
  if data = [] then (none, [])
  else
    let uniqueDocs := dedupClean dt data
    let evaluated := evaluateDocuments rerank (uniqueDocs.map Prod.snd)
    if evaluated = [] then (none, [])
    else
      let relevantDocs := ((uniqueDocs.map Prod.fst).zip evaluated).filter
        (fun p => rerankThreshold ≤ overallOf p.2)
      let sortedItems := sortByScoreDesc relevantDocs
      let curated :=
        if 30 < sortedItems.length then sortedItems.take 30 else sortedItems
      (some curated, curated.map (fun p => (p.1, overallOf p.2)))

/-- The four category maps entering curation. -/
structure CurateInput where
  financial_data : List (String × Doc)
  news_data : List (String × Doc)
  industry_data : List (String × Doc)
  company_data : List (String × Doc)
deriving DecidableEq, Repr

/-- The curator delta: four optional curated maps plus `references`. -/
structure CurateOutput where
  curated_financial_data : Option (List (String × Doc))
  curated_news_data : Option (List (String × Doc))
  curated_industry_data : Option (List (String × Doc))
  curated_company_data : Option (List (String × Doc))
  references : List String
deriving DecidableEq, Repr

/-- Descending comparison on reference scores. -/
def refGe (a b : String × Rat) : Prop :=
  b.2 ≤ a.2

instance : DecidableRel refGe := fun a b =>
  inferInstanceAs (Decidable (b.2 ≤ a.2))

instance : IsTotal (String × Rat) refGe :=
  ⟨fun a b => le_total b.2 a.2⟩

instance : IsTrans (String × Rat) refGe :=
  ⟨fun _ _ _ hab hbc => le_trans hbc hab⟩

/-- `all_top_references.sort(key=lambda x: x[1], reverse=True)`, a stable
descending sort on the score. -/
def sortRefsDesc (l : List (String × Rat)) : List (String × Rat) :=
  List.insertionSort refGe l

/-- The reference pool accumulated across the four categories, in the
iteration order of the `data_types` dictionary of the source:
financial, news, industry, company. -/
def allRefs (rerank : String → String → Rat) (inp : CurateInput) :
    List (String × Rat) :=
  (curateCategory rerank "financial" inp.financial_data).2 ++
  (curateCategory rerank "news" inp.news_data).2 ++
  (curateCategory rerank "industry" inp.industry_data).2 ++
  (curateCategory rerank "company" inp.company_data).2

/-- `Curator.curate_data`: per-category curation followed by the global
sort of the reference pool and `all_top_references[:10]`. -/
def curateData (rerank : String → String → Rat) (inp : CurateInput) :
    CurateOutput :=
  { curated_financial_data := (curateCategory rerank "financial" inp.financial_data).1
    curated_news_data := (curateCategory rerank "news" inp.news_data).1
    curated_industry_data := (curateCategory rerank "industry" inp.industry_data).1
    curated_company_data := (curateCategory rerank "company" inp.company_data).1
    references := ((sortRefsDesc (allRefs rerank inp)).take 10).map Prod.fst }

/-- Selector for the four curated maps of the curator delta. -/
def curatedField (o : CurateOutput) : Fin 4 → Option (List (String × Doc))
  | 0 => o.curated_financial_data
  | 1 => o.curated_news_data
  | 2 => o.curated_industry_data
  | 3 => o.curated_company_data

/-- Selector for the four raw category maps of the curator input. -/
def dataField (inp : CurateInput) : Fin 4 → List (String × Doc)
  | 0 => inp.financial_data
  | 1 => inp.news_data
  | 2 => inp.industry_data
  | 3 => inp.company_data

/-- All URL keys appearing in some curated category map. -/
def unionCuratedKeys (o : CurateOutput) : List String :=
  (o.curated_financial_data.getD []).map Prod.fst ++
  (o.curated_news_data.getD []).map Prod.fst ++
  (o.curated_industry_data.getD []).map Prod.fst ++
  (o.curated_company_data.getD []).map Prod.fst

/-! ### Curator lemmas -/

/-- The evaluation loop of `evaluate_documents` is the `filterMap` of the
per-document survival decision. -/
theorem evaluateDocuments_eq_filterMap (rerank : String → String → Rat)
    (docs : List Doc) :
    evaluateDocuments rerank docs = docs.filterMap (evalStep rerank) := by
  have aux : ∀ (l : List Doc) (acc : List Doc),
      ((l.filter (fun d => contentOf d ≠ "")).foldl (fun acc d =>
        let tavilyScore := d.score
        if tavilyThreshold ≤ tavilyScore then
          let specificQuery := d.query
          let fd := formatDocument d
          let s := rerank specificQuery fd
          if rerankThreshold ≤ s then
            acc ++ [withEval d s tavilyScore specificQuery fd]
          else acc
        else acc) acc) = acc ++ l.filterMap (evalStep rerank) := by
    intro l
    induction l with
    | nil => intro acc; simp
    | cons d ds ih =>
      intro acc
      by_cases hc : contentOf d ≠ ""
      · rw [List.filter_cons_of_pos (by simpa using hc), List.foldl_cons, ih,
          List.filterMap_cons]
        by_cases h1 : tavilyThreshold ≤ d.score
        · by_cases h2 : rerankThreshold ≤ rerank d.query (formatDocument d)
          · have hsome : evalStep rerank d = some (withEval d
                (rerank d.query (formatDocument d)) d.score d.query
                (formatDocument d)) := by
              unfold evalStep
              rw [if_pos]
              exact ⟨hc, h1, h2⟩
            rw [hsome]
            simp only [if_pos h1, if_pos h2]
            simp
          · have hnone : evalStep rerank d = none := by
              unfold evalStep
              rw [if_neg (by tauto)]
            rw [hnone]
            simp only [if_pos h1, if_neg h2]
        · have hnone : evalStep rerank d = none := by
            unfold evalStep
            rw [if_neg (by tauto)]
          rw [hnone]
          simp only [if_neg h1]
      · rw [List.filter_cons_of_neg (by simpa using hc), List.filterMap_cons]
        have hnone : evalStep rerank d = none := by
          unfold evalStep
          rw [if_neg (by tauto)]
        rw [hnone]
        exact ih acc
  unfold evaluateDocuments
  by_cases hd : docs = []
  · subst hd; simp
  · rw [if_neg hd]
    by_cases hv : docs.filter (fun d => contentOf d ≠ "") = []
    · rw [if_pos hv]
      symm
      rw [List.filterMap_eq_nil_iff]
      intro a ha
      have : ¬ (contentOf a ≠ "") := by
        have := List.filter_eq_nil_iff.mp hv a ha
        simpa using this
      unfold evalStep
      rw [if_neg (by tauto)]
    · rw [if_neg hv, aux, List.nil_append]

/-- C1 (amended): a document survives `Curator.evaluate_documents` exactly
when its content chain is nonempty, its upstream Tavily score is at least
0.25 and the Cohere rerank score for its own query is at least 0.3; every
survivor carries an evaluation whose `overall_score` is the rerank score
(not the upstream score), whose `tavily_score` is the upstream score and
whose `query` is the query that produced the document. -/
theorem curation_survival (rerank : String → String → Rat) (docs : List Doc) :
    (∀ e, e ∈ evaluateDocuments rerank docs ↔
      ∃ d ∈ docs, contentOf d ≠ "" ∧ tavilyThreshold ≤ d.score ∧
        rerankThreshold ≤ rerank d.query (formatDocument d) ∧
        e = withEval d (rerank d.query (formatDocument d)) d.score d.query
          (formatDocument d)) ∧
    (∀ e ∈ evaluateDocuments rerank docs, ∃ ev, e.evaluation = some ev ∧
      ev.query = e.query ∧ ev.tavily_score = e.score ∧
      ev.overall_score = rerank ev.query ev.formatted_content ∧
      rerankThreshold ≤ ev.overall_score) := by
  have hmem : ∀ e, e ∈ evaluateDocuments rerank docs ↔
      ∃ d ∈ docs, contentOf d ≠ "" ∧ tavilyThreshold ≤ d.score ∧
        rerankThreshold ≤ rerank d.query (formatDocument d) ∧
        e = withEval d (rerank d.query (formatDocument d)) d.score d.query
          (formatDocument d) := by
    intro e
    rw [evaluateDocuments_eq_filterMap, List.mem_filterMap]
    constructor
    · rintro ⟨a, ha, hstep⟩
      unfold evalStep at hstep
      split_ifs at hstep with hcond
      · obtain ⟨h1, h2, h3⟩ := hcond
        injection hstep with hstep
        subst hstep
        exact ⟨a, ha, h1, h2, h3, rfl⟩
    · rintro ⟨d, hd, h1, h2, h3, rfl⟩
      refine ⟨d, hd, ?_⟩
      unfold evalStep
      rw [if_pos ⟨h1, h2, h3⟩]
  refine ⟨hmem, ?_⟩
  intro e he
  obtain ⟨d, -, -, -, h3, rfl⟩ := (hmem e).mp he
  exact ⟨⟨rerank d.query (formatDocument d), d.score, d.query, formatDocument d⟩,
    rfl, rfl, rfl, rfl, h3⟩

/-- Rerank oracle that scores everything 0. -/
def rerankZero : String → String → Rat := fun _ _ => 0

/-- Rerank oracle that scores everything 0.5. -/
def rerankHalf : String → String → Rat := fun _ _ => ⟨1, 2, by decide, by decide⟩

/-- A plain web-search document with upstream score 0.5. -/
def sampleDoc : Doc :=
  { title := "t", content := "c", query := "q one two", url := "https://a.com/x",
    source := "web_search", score := ⟨1, 2, by decide, by decide⟩,
    raw_content := none, doc_type := none, evaluation := none }

/-- C1 counterexample: `sampleDoc` has upstream score 0.5, which is at
least the 0.4 of the claim, yet with a rerank score of 0 it does not
survive curation — survival is not decided by the upstream score. -/
theorem curation_not_upstream_threshold :
    evaluateDocuments rerankZero [sampleDoc] = [] ∧
      specThreshold ≤ sampleDoc.score := by
  constructor
  · decide
  · decide

/-- C1 witness: with a rerank score of 0.5 the same document survives and
carries the rerank evaluation. -/
theorem curation_survival_witness :
    withEval sampleDoc (rerankHalf sampleDoc.query (formatDocument sampleDoc))
        sampleDoc.score sampleDoc.query (formatDocument sampleDoc) ∈
      evaluateDocuments rerankHalf [sampleDoc] :=
  ((curation_survival rerankHalf [sampleDoc]).1 _).mpr
    ⟨sampleDoc, by decide, by decide, by decide, by decide, rfl⟩

/-- Every key produced by the dedup-and-clean pass is the cleaned form of
some key of the raw category map. -/
theorem dedupClean_keys_sub (dt : String) (data : List (String × Doc)) :
    ∀ k ∈ (dedupClean dt data).map Prod.fst,
      k ∈ data.map (fun p => cleanUrl p.1) := by
  unfold dedupClean
  suffices h : ∀ (l : List (String × Doc)) (acc : List (String × Doc)),
      ∀ k ∈ (l.foldl (fun acc kv =>
          let clean := cleanUrl kv.1
          if (acc.lookup clean).isSome then acc
          else acc ++ [(clean, { kv.2 with url := clean, doc_type := some dt })])
        acc).map Prod.fst,
        k ∈ acc.map Prod.fst ∨ k ∈ l.map (fun p => cleanUrl p.1) by
    intro k hk
    rcases h data [] k hk with h' | h'
    · simp at h'
    · exact h'
  intro l
  induction l with
  | nil => intro acc k hk; exact Or.inl hk
  | cons kv rest ih =>
    intro acc k hk
    rw [List.foldl_cons] at hk
    rcases ih _ k hk with h' | h'
    · by_cases hmem : ((acc.lookup (cleanUrl kv.1)).isSome : Prop)
      · rw [if_pos hmem] at h'
        exact Or.inl h'
      · rw [if_neg hmem, List.map_append, List.mem_append] at h'
        rcases h' with h' | h'
        · exact Or.inl h'
        · right
          simp only [List.map_cons, List.mem_cons]
          simp only [List.map_cons, List.map_nil, List.mem_singleton] at h'
          exact Or.inl h'
    · right
      exact List.mem_cons_of_mem _ h'

/-- Documents kept by the top-30 truncation of `curate_data` belong to the
sorted list. -/
theorem mem_of_mem_take30 {l : List (String × Doc)} {p : String × Doc}
    (hp : p ∈ (if 30 < l.length then l.take 30 else l)) : p ∈ l := by
  split_ifs at hp with h30
  · exact List.take_subset 30 l hp
  · exact hp

/-- When a category is actually curated, its keys come from the cleaned raw
keys and every stored document carries an evaluation record. -/
theorem curateCategory_some (rerank : String → String → Rat) (dt : String)
    (data : List (String × Doc)) (m : List (String × Doc))
    (h : (curateCategory rerank dt data).1 = some m) :
    (∀ k ∈ m.map Prod.fst, k ∈ data.map (fun p => cleanUrl p.1)) ∧
    (∀ p ∈ m, p.2.evaluation.isSome = true) := by
  simp only [curateCategory] at h
  by_cases h1 : data = []
  · rw [if_pos h1] at h
    simp at h
  rw [if_neg h1] at h
  by_cases h2 : evaluateDocuments rerank ((dedupClean dt data).map Prod.snd) = []
  · rw [if_pos h2] at h
    simp at h
  rw [if_neg h2] at h
  simp only [Option.some.injEq] at h
  subst h
  have hchain : ∀ p, p ∈ (if 30 < (sortByScoreDesc
        ((((dedupClean dt data).map Prod.fst).zip
          (evaluateDocuments rerank ((dedupClean dt data).map Prod.snd))).filter
          (fun p => rerankThreshold ≤ overallOf p.2))).length then
        (sortByScoreDesc
          ((((dedupClean dt data).map Prod.fst).zip
            (evaluateDocuments rerank ((dedupClean dt data).map Prod.snd))).filter
            (fun p => rerankThreshold ≤ overallOf p.2))).take 30
      else sortByScoreDesc
        ((((dedupClean dt data).map Prod.fst).zip
          (evaluateDocuments rerank ((dedupClean dt data).map Prod.snd))).filter
          (fun p => rerankThreshold ≤ overallOf p.2))) →
      p.1 ∈ (dedupClean dt data).map Prod.fst ∧
      p.2 ∈ evaluateDocuments rerank ((dedupClean dt data).map Prod.snd) := by
    intro p hp
    have hp1 := mem_of_mem_take30 hp
    have hp2 := (List.perm_insertionSort docGe _).subset hp1
    have hp3 := List.mem_of_mem_filter hp2
    exact List.of_mem_zip hp3
  constructor
  · intro k hk
    rw [List.mem_map] at hk
    obtain ⟨p, hp, rfl⟩ := hk
    exact dedupClean_keys_sub dt data _ (hchain p hp).1
  · intro p hp
    have hev := (hchain p hp).2
    rw [evaluateDocuments_eq_filterMap, List.mem_filterMap] at hev
    obtain ⟨a, -, hstep⟩ := hev
    unfold evalStep at hstep
    split_ifs at hstep
    injection hstep with hstep
    rw [← hstep]
    rfl

/-- C2 (amended): for every category, the URL keys of the curated map are
among the cleaned (query- and fragment-stripped) forms of the keys of the
raw category map — not among the raw keys themselves — and every curated
document carries an `evaluation` record with an `overall_score`. -/
theorem curated_keys_subset_cleaned (rerank : String → String → Rat)
    (inp : CurateInput) (i : Fin 4) (m : List (String × Doc))
    (h : curatedField (curateData rerank inp) i = some m) :
    (∀ k ∈ m.map Prod.fst, k ∈ (dataField inp i).map (fun p => cleanUrl p.1)) ∧
    (∀ p ∈ m, p.2.evaluation.isSome = true) := by
  fin_cases i
  · exact curateCategory_some rerank "financial" inp.financial_data m h
  · exact curateCategory_some rerank "news" inp.news_data m h
  · exact curateCategory_some rerank "industry" inp.industry_data m h
  · exact curateCategory_some rerank "company" inp.company_data m h

/-- A curator input holding `sampleDoc` under one financial URL. -/
def sampleInput : CurateInput :=
  { financial_data := [("https://a.com/x", sampleDoc)], news_data := [],
    industry_data := [], company_data := [] }

/-- `sampleDoc` after curation: cleaned URL, category tag, rerank
evaluation. -/
def curatedSampleDoc : Doc :=
  { sampleDoc with
    url := "https://a.com/x", doc_type := some "financial",
    evaluation := some ⟨⟨1, 2, by decide, by decide⟩, ⟨1, 2, by decide, by decide⟩,
      "q one two", "Title: t\n\nContent: c"⟩ }

/-- C2 witness: on `sampleInput` the financial category curates exactly the
sample document, and its key is among the cleaned raw keys. -/
theorem curated_keys_subset_cleaned_witness :
    curatedField (curateData rerankHalf sampleInput) 0 =
        some [("https://a.com/x", curatedSampleDoc)] ∧
      "https://a.com/x" ∈ (dataField sampleInput 0).map (fun p => cleanUrl p.1) :=
  ⟨by decide,
    (curated_keys_subset_cleaned rerankHalf sampleInput 0
        [("https://a.com/x", curatedSampleDoc)] (by decide)).1 _ (by decide)⟩

/-- A curator input whose only key carries a query string. -/
def trackedInput : CurateInput :=
  { financial_data := [("https://a.com/x?tracking=1", sampleDoc)], news_data := [],
    industry_data := [], company_data := [] }

/-- C2 counterexample: the curated key is the cleaned URL, which is not a
key of the raw category map, so `keys(curated_X) ⊆ keys(X)` fails as
stated. -/
theorem curated_keys_not_raw_subset :
    ((curatedField (curateData rerankHalf trackedInput) 0).getD []).map Prod.fst =
        ["https://a.com/x"] ∧
      "https://a.com/x" ∉ (dataField trackedInput 0).map Prod.fst := by
  constructor
  · decide
  · decide

/-- Every `(url, score)` contribution a category makes to the reference
pool is keyed by one of its curated keys. -/
theorem curateCategory_refs_keys (rerank : String → String → Rat) (dt : String)
    (data : List (String × Doc)) :
    ∀ x ∈ (curateCategory rerank dt data).2,
      x.1 ∈ ((curateCategory rerank dt data).1.getD []).map Prod.fst := by
  intro x hx
  simp only [curateCategory] at hx ⊢
  by_cases h1 : data = []
  · rw [if_pos h1] at hx
    simp at hx
  rw [if_neg h1] at hx ⊢
  by_cases h2 : evaluateDocuments rerank ((dedupClean dt data).map Prod.snd) = []
  · rw [if_pos h2] at hx
    simp at hx
  rw [if_neg h2] at hx ⊢
  simp only [Option.getD_some]
  rw [List.mem_map] at hx
  obtain ⟨p, hp, rfl⟩ := hx
  exact List.mem_map_of_mem Prod.fst hp

/-- C3 (amended): after curation `references` holds at most 10 entries,
every entry is a key of some curated category map, and the entries follow
the score-descending order of the concatenated per-category reference
pools.  The source never deduplicates the pool, so a URL curated in two
categories can appear twice (see the counterexample). -/
theorem references_top10 (rerank : String → String → Rat) (inp : CurateInput) :
    (curateData rerank inp).references.length ≤ 10 ∧
    (∀ r ∈ (curateData rerank inp).references,
      r ∈ unionCuratedKeys (curateData rerank inp)) ∧
    ((sortRefsDesc (allRefs rerank inp)).take 10).Pairwise refGe ∧
    (curateData rerank inp).references =
      ((sortRefsDesc (allRefs rerank inp)).take 10).map Prod.fst := by
  refine ⟨?_, ?_, ?_, rfl⟩
  · show (((sortRefsDesc (allRefs rerank inp)).take 10).map Prod.fst).length ≤ 10
    rw [List.length_map, List.length_take]
    exact min_le_left _ _
  · intro r hr
    have hr' : r ∈ ((sortRefsDesc (allRefs rerank inp)).take 10).map Prod.fst := hr
    rw [List.mem_map] at hr'
    obtain ⟨x, hx, rfl⟩ := hr'
    have hx1 := List.take_subset 10 _ hx
    have hx2 := (List.perm_insertionSort refGe _).subset hx1
    unfold allRefs at hx2
    rw [List.mem_append, List.mem_append, List.mem_append] at hx2
    show x.1 ∈ unionCuratedKeys (curateData rerank inp)
    unfold unionCuratedKeys
    rw [List.mem_append, List.mem_append, List.mem_append]
    rcases hx2 with ((h | h) | h) | h
    · exact Or.inl (Or.inl (Or.inl (curateCategory_refs_keys rerank "financial"
        inp.financial_data x h)))
    · exact Or.inl (Or.inl (Or.inr (curateCategory_refs_keys rerank "news"
        inp.news_data x h)))
    · exact Or.inl (Or.inr (curateCategory_refs_keys rerank "industry"
        inp.industry_data x h))
    · exact Or.inr (curateCategory_refs_keys rerank "company"
        inp.company_data x h)
  · exact List.Pairwise.sublist (List.take_sublist 10 _)
      (List.sorted_insertionSort refGe _)

/-- A curator input holding the same URL in two categories. -/
def dupInput : CurateInput :=
  { financial_data := [("https://a.com/x", sampleDoc)],
    news_data := [("https://a.com/x", sampleDoc)],
    industry_data := [], company_data := [] }

/-- C3 counterexample: the same URL curated in the financial and the news
categories appears twice in `references` — the entries are not pairwise
distinct and no highest-score deduplication happens. -/
theorem references_contain_duplicates :
    (curateData rerankHalf dupInput).references =
        ["https://a.com/x", "https://a.com/x"] ∧
      ¬ (curateData rerankHalf dupInput).references.Nodup := by
  constructor
  · decide
  · decide

/-- C3 witness: the amended bound and key-membership facts at a concrete
input. -/
theorem references_top10_witness :
    (curateData rerankHalf dupInput).references.length ≤ 10 ∧
      "https://a.com/x" ∈ unionCuratedKeys (curateData rerankHalf dupInput) :=
  ⟨(references_top10 rerankHalf dupInput).1,
    (references_top10 rerankHalf dupInput).2.1 _ (by decide)⟩

/-! ## Researcher search (`backend/nodes/researchers/base.py`)

The Tavily search service is an oracle `search : String → List SearchResult`
returning the result list for a query.  Python dictionaries keyed by URL are
association lists; `d[k] = v` and `dict.update` keep the position of an
existing key and replace its value. -/

/-- One entry of `results["results"]` from the Tavily search call. -/
structure SearchResult where
  title : String
  content : String
  url : String
  score : Rat
deriving DecidableEq, Repr

/-- Python `len(q.split())`: the number of maximal whitespace-free runs
(counted over the character list so the kernel can evaluate it). -/
def wordCount (s : String) : Nat :=
  (s.toList.foldl (fun (st : Nat × Bool) c =>
    if c.isWhitespace then (st.1, false)
    else if st.2 then st else (st.1 + 1, true)) (0, false)).1

/-- Python `d[k] = v` on an insertion-ordered dictionary. -/
def dictInsert (m : List (String × Doc)) (k : String) (v : Doc) :
    List (String × Doc) :=
  if (m.lookup k).isSome then
    m.map (fun p => if p.1 = k then (k, v) else p)
  else m ++ [(k, v)]

/-- Python `m.update(extra)`. -/
def dictUpdate (m extra : List (String × Doc)) : List (String × Doc) :=
  extra.foldl (fun acc p => dictInsert acc p.1 p.2) m

/-- The document dictionary recorded by `search_single_query` for a search
result (the URL is stored raw — no canonicalization happens here). -/
def mkWebDoc (r : SearchResult) (q : String) : Doc :=
  { title := r.title, content := r.content, query := q, url := r.url,
    source := "web_search", score := r.score, raw_content := none,
    doc_type := none, evaluation := none }

/-- `BaseResearcher.search_single_query`: nothing for an empty or
sub-3-word query; otherwise each result with nonempty content and URL is
stored under its URL. -/
def searchSingleQuery (search : String → List SearchResult) (q : String) :
    List (String × Doc) :=
  if q = "" ∨ wordCount q < 3 then []
  else
    (search q).foldl (fun docs r =>
      if r.content = "" ∨ r.url = "" then docs
      else dictInsert docs r.url (mkWebDoc r q)) []

/-- `query_batches = [valid[i:i+4] for i in range(0, len(valid), 4)]`. -/
def chunks4 : List String → List (List String)
  | [] => []
  | [a] => [[a]]
  | [a, b] => [[a, b]]
  | [a, b, c] => [[a, b, c]]
  | a :: b :: c :: d :: rest => [a, b, c, d] :: chunks4 rest

/-- `process_search_batch`: the per-query dictionaries of one batch merged
with `dict.update` in query order (`asyncio.gather` preserves order). -/
def processBatch (search : String → List SearchResult) (batch : List String) :
    List (String × Doc) :=
  batch.foldl (fun acc q => dictUpdate acc (searchSingleQuery search q)) []

/-- `BaseResearcher.search_documents`: keep queries with at least three
words, run the batches of four, merge every batch result with
`dict.update` in batch order. -/
def searchDocuments (search : String → List SearchResult)
    (queries : List String) : List (String × Doc) :=
  if queries = [] then []
  else
    let valid := queries.filter (fun q => 3 ≤ wordCount q)
    if valid = [] then []
    else
      (chunks4 valid).foldl
        (fun acc b => dictUpdate acc (processBatch search b)) []

/-! ### Dictionary lemmas for the researcher merge -/

theorem lookup_append (l₁ l₂ : List (String × Doc)) (k : String) :
    (l₁ ++ l₂).lookup k = (l₁.lookup k).or (l₂.lookup k) := by
  induction l₁ with
  | nil => simp
  | cons p ps ih =>
    obtain ⟨a, b⟩ := p
    rw [List.cons_append, List.lookup_cons, List.lookup_cons]
    cases hab : (k == a)
    · simpa using ih
    · simp

theorem lookup_none_iff_not_mem_keys (m : List (String × Doc)) (k : String) :
    m.lookup k = none ↔ k ∉ m.map Prod.fst := by
  induction m with
  | nil => simp
  | cons p ps ih =>
    obtain ⟨a, b⟩ := p
    rw [List.lookup_cons]
    by_cases hk : k = a
    · subst hk
      simp
    · have hb : (k == a) = false := by simp [hk]
      rw [hb]
      simp [hk, ih]

theorem mem_of_lookup_some {m : List (String × Doc)} {k : String} {v : Doc}
    (h : m.lookup k = some v) : (k, v) ∈ m := by
  induction m with
  | nil => simp at h
  | cons p ps ih =>
    obtain ⟨a, b⟩ := p
    rw [List.lookup_cons] at h
    cases hab : (k == a)
    · rw [hab] at h
      exact List.mem_cons_of_mem _ (ih h)
    · rw [hab] at h
      injection h with h
      subst h
      have : k = a := by simpa using hab
      subst this
      exact List.mem_cons_self _ _

theorem lookup_mapReplace_self (m : List (String × Doc)) (k : String) (v : Doc)
    (hs : (m.lookup k).isSome) :
    (m.map (fun p => if p.1 = k then (k, v) else p)).lookup k = some v := by
  induction m with
  | nil => simp at hs
  | cons p ps ih =>
    obtain ⟨a, b⟩ := p
    by_cases hak : a = k
    · subst hak
      simp [List.lookup_cons]
    · have hka : k ≠ a := fun h => hak h.symm
      have hb : (k == a) = false := by simp [hka]
      simp only [List.map_cons, if_neg hak]
      rw [List.lookup_cons, hb]
      apply ih
      rw [List.lookup_cons, hb] at hs
      exact hs

theorem lookup_mapReplace_other (m : List (String × Doc)) (k k' : String)
    (v : Doc) (hk : k' ≠ k) :
    (m.map (fun p => if p.1 = k then (k, v) else p)).lookup k' = m.lookup k' := by
  induction m with
  | nil => simp
  | cons p ps ih =>
    obtain ⟨a, b⟩ := p
    by_cases hak : a = k
    · subst hak
      have hb : (k' == a) = false := by simp [hk]
      simp [List.lookup_cons, hb, ih]
    · simp only [List.map_cons, if_neg hak]
      rw [List.lookup_cons, List.lookup_cons]
      cases hab : (k' == a)
      · exact ih
      · rfl

theorem lookup_dictInsert (m : List (String × Doc)) (k k' : String) (v : Doc) :
    (dictInsert m k v).lookup k' = if k' = k then some v else m.lookup k' := by
  unfold dictInsert
  by_cases hs : (m.lookup k).isSome
  · rw [if_pos hs]
    by_cases hk : k' = k
    · subst hk
      rw [if_pos rfl]
      exact lookup_mapReplace_self m k' v hs
    · rw [if_neg hk]
      exact lookup_mapReplace_other m k k' v hk
  · rw [if_neg hs, lookup_append]
    by_cases hk : k' = k
    · subst hk
      rw [if_pos rfl]
      have hnone : m.lookup k' = none := by
        cases h : m.lookup k'
        · rfl
        · rw [h] at hs
          simp at hs
      rw [hnone]
      simp [List.lookup_cons]
    · rw [if_neg hk]
      have hone : ([(k, v)] : List (String × Doc)).lookup k' = none := by
        rw [List.lookup_cons]
        have hb : (k' == k) = false := by simp [hk]
        rw [hb]
        rfl
      rw [hone]
      cases h : m.lookup k' <;> rfl

theorem lookup_dictUpdate (m extra : List (String × Doc)) (k : String) :
    (dictUpdate m extra).lookup k = (extra.reverse.lookup k).or (m.lookup k) := by
  induction extra generalizing m with
  | nil => simp [dictUpdate]
  | cons p ps ih =>
    have hstep : dictUpdate m (p :: ps) = dictUpdate (dictInsert m p.1 p.2) ps := rfl
    rw [hstep, ih, lookup_dictInsert, List.reverse_cons, lookup_append]
    cases hpr : ps.reverse.lookup k
    · simp only [Option.or]
      rw [List.lookup_cons]
      by_cases hk : k = p.1
      · have hb : (k == p.1) = true := by simp [hk]
        rw [hb, if_pos hk]
      · have hb : (k == p.1) = false := by simp [hk]
        rw [hb, if_neg hk]
        rfl
    · simp [Option.or]

theorem keys_dictInsert (m : List (String × Doc)) (k : String) (v : Doc) :
    (dictInsert m k v).map Prod.fst =
      if (m.lookup k).isSome then m.map Prod.fst else m.map Prod.fst ++ [k] := by
  unfold dictInsert
  by_cases hs : (m.lookup k).isSome
  · rw [if_pos hs, if_pos hs, List.map_map]
    apply List.map_congr_left
    intro p hp
    by_cases hp1 : p.1 = k
    · simp [hp1]
    · simp [hp1]
  · rw [if_neg hs, if_neg hs, List.map_append]
    rfl

theorem nodup_keys_dictInsert {m : List (String × Doc)} (k : String) (v : Doc)
    (h : (m.map Prod.fst).Nodup) : ((dictInsert m k v).map Prod.fst).Nodup := by
  rw [keys_dictInsert]
  by_cases hs : (m.lookup k).isSome
  · rw [if_pos hs]
    exact h
  · rw [if_neg hs]
    have hk : k ∉ m.map Prod.fst := by
      rw [← lookup_none_iff_not_mem_keys]
      cases hl : m.lookup k
      · rfl
      · rw [hl] at hs
        simp at hs
    simp [List.nodup_append, h, hk]

theorem nodup_keys_dictUpdate {m : List (String × Doc)}
    (extra : List (String × Doc)) (h : (m.map Prod.fst).Nodup) :
    ((dictUpdate m extra).map Prod.fst).Nodup := by
  induction extra generalizing m with
  | nil => exact h
  | cons p ps ih =>
    have hstep : dictUpdate m (p :: ps) = dictUpdate (dictInsert m p.1 p.2) ps := rfl
    rw [hstep]
    exact ih (nodup_keys_dictInsert _ _ h)

theorem nodup_keys_searchSingleQuery (search : String → List SearchResult)
    (q : String) : ((searchSingleQuery search q).map Prod.fst).Nodup := by
  unfold searchSingleQuery
  split_ifs with h
  · simp
  · suffices haux : ∀ (rs : List SearchResult) (m : List (String × Doc)),
        (m.map Prod.fst).Nodup →
        ((rs.foldl (fun docs r =>
          if r.content = "" ∨ r.url = "" then docs
          else dictInsert docs r.url (mkWebDoc r q)) m).map Prod.fst).Nodup by
      exact haux (search q) [] (by simp)
    intro rs
    induction rs with
    | nil => intro m hm; exact hm
    | cons r rest ih =>
      intro m hm
      rw [List.foldl_cons]
      apply ih
      by_cases hr : r.content = "" ∨ r.url = ""
      · rw [if_pos hr]
        exact hm
      · rw [if_neg hr]
        exact nodup_keys_dictInsert _ _ hm

theorem nodup_keys_updateFold {α : Type} (f : α → List (String × Doc)) :
    ∀ (l : List α) (m : List (String × Doc)), (m.map Prod.fst).Nodup →
      ((l.foldl (fun acc q => dictUpdate acc (f q)) m).map Prod.fst).Nodup := by
  intro l
  induction l with
  | nil => intro m hm; exact hm
  | cons q qs ih =>
    intro m hm
    rw [List.foldl_cons]
    exact ih _ (nodup_keys_dictUpdate _ hm)

theorem reverse_lookup_of_nodup {m : List (String × Doc)}
    (h : (m.map Prod.fst).Nodup) (k : String) :
    m.reverse.lookup k = m.lookup k := by
  induction m with
  | nil => simp
  | cons p ps ih =>
    obtain ⟨a, b⟩ := p
    simp only [List.map_cons, List.nodup_cons] at h
    obtain ⟨ha, hps⟩ := h
    rw [List.reverse_cons, lookup_append, List.lookup_cons]
    by_cases hk : k = a
    · subst hk
      have h2 : ps.reverse.lookup k = none := by
        rw [lookup_none_iff_not_mem_keys]
        simpa [List.map_reverse] using ha
      rw [h2]
      simp [List.lookup_cons]
    · have hb : (k == a) = false := by simp [hk]
      rw [hb]
      rw [List.lookup_cons, hb, ih hps]
      cases hl : ps.lookup k <;> simp [hl, Option.or]

theorem lookup_updateFold {α : Type} (f : α → List (String × Doc)) :
    ∀ (l : List α) (m : List (String × Doc)) (u : String),
      (l.foldl (fun acc q => dictUpdate acc (f q)) m).lookup u =
        (l.reverse.findSome? (fun q => (f q).reverse.lookup u)).or (m.lookup u) := by
  intro l
  induction l with
  | nil => intro m u; simp
  | cons q qs ih =>
    intro m u
    rw [List.foldl_cons, ih, List.reverse_cons, List.findSome?_append,
      lookup_dictUpdate]
    cases hq : qs.reverse.findSome? (fun q => (f q).reverse.lookup u)
    · simp only [hq, Option.or]
      cases hfq : (f q).reverse.lookup u <;> simp [List.findSome?, hfq]
    · simp [hq, Option.or]

theorem lookup_processBatch (search : String → List SearchResult)
    (batch : List String) (u : String) :
    (processBatch search batch).lookup u =
      batch.reverse.findSome? (fun q => (searchSingleQuery search q).lookup u) := by
  unfold processBatch
  rw [lookup_updateFold]
  have hfn : (fun q => (searchSingleQuery search q).reverse.lookup u) =
      (fun q => (searchSingleQuery search q).lookup u) := by
    funext q
    exact reverse_lookup_of_nodup (nodup_keys_searchSingleQuery search q) u
  rw [hfn]
  cases hf : (batch.reverse.findSome? fun q => (searchSingleQuery search q).lookup u)
    <;> rfl

theorem flatten_chunks4 : ∀ l : List String, (chunks4 l).flatten = l
  | [] => rfl
  | [_] => rfl
  | [_, _] => rfl
  | [_, _, _] => rfl
  | a :: b :: c :: d :: rest => by
    show (([a, b, c, d] :: chunks4 rest)).flatten = _
    rw [List.flatten_cons, flatten_chunks4 rest]
    rfl

theorem findSome?_reverse_flatten {β : Type} (g : String → Option β) :
    ∀ (bs : List (List String)),
      bs.reverse.findSome? (fun b => b.reverse.findSome? g) =
        bs.flatten.reverse.findSome? g := by
  intro bs
  induction bs with
  | nil => simp
  | cons b bs ih =>
    rw [List.reverse_cons, List.findSome?_append, ih, List.flatten_cons,
      List.reverse_append, List.findSome?_append]
    congr 1
    cases hfb : b.reverse.findSome? g <;> simp [List.findSome?, hfb]

theorem nodup_keys_processBatch (search : String → List SearchResult)
    (b : List String) : ((processBatch search b).map Prod.fst).Nodup :=
  nodup_keys_updateFold (searchSingleQuery search) b [] (by simp)

theorem mem_dictInsert {m : List (String × Doc)} {k : String} {v : Doc}
    {p : String × Doc} (hp : p ∈ dictInsert m k v) : p ∈ m ∨ p = (k, v) := by
  unfold dictInsert at hp
  split_ifs at hp with hs
  · rw [List.mem_map] at hp
    obtain ⟨p₀, hp₀, rfl⟩ := hp
    by_cases h1 : p₀.1 = k
    · right
      simp [h1]
    · left
      simpa [h1] using hp₀
  · rw [List.mem_append] at hp
    rcases hp with hp | hp
    · exact Or.inl hp
    · right
      simpa using hp

/-- Every entry of a single-query result dictionary: keyed by the document
URL, nonempty content and URL, the query recorded, source `web_search`. -/
theorem searchSingleQuery_sound (search : String → List SearchResult)
    (q : String) : ∀ p ∈ searchSingleQuery search q,
    p.1 = p.2.url ∧ p.2.content ≠ "" ∧ p.2.url ≠ "" ∧ p.2.query = q ∧
    p.2.source = "web_search" := by
  unfold searchSingleQuery
  split_ifs with h
  · simp
  · suffices haux : ∀ (rs : List SearchResult) (m : List (String × Doc)),
        (∀ p ∈ m, p.1 = p.2.url ∧ p.2.content ≠ "" ∧ p.2.url ≠ "" ∧
          p.2.query = q ∧ p.2.source = "web_search") →
        ∀ p ∈ rs.foldl (fun docs r =>
          if r.content = "" ∨ r.url = "" then docs
          else dictInsert docs r.url (mkWebDoc r q)) m,
          p.1 = p.2.url ∧ p.2.content ≠ "" ∧ p.2.url ≠ "" ∧
          p.2.query = q ∧ p.2.source = "web_search" by
      exact haux (search q) [] (by simp)
    intro rs
    induction rs with
    | nil => intro m hm; exact hm
    | cons r rest ih =>
      intro m hm
      rw [List.foldl_cons]
      apply ih
      intro p hp
      by_cases hr : r.content = "" ∨ r.url = ""
      · rw [if_pos hr] at hp
        exact hm p hp
      · rw [if_neg hr] at hp
        rcases mem_dictInsert hp with hp' | hp'
        · exact hm p hp'
        · subst hp'
          push_neg at hr
          exact ⟨rfl, hr.1, hr.2, rfl, rfl⟩

/-- C4 (amended): the map a researcher records is keyed by raw result URL,
and when the same URL arises from several queries, the entry that survives
is the one of the LAST valid query producing it — `dict.update` overwrites,
so later queries win, not earlier ones.  Every recorded document has
nonempty content, carries its URL as key, and came from a query with at
least three words. -/
theorem search_documents_merge (search : String → List SearchResult)
    (queries : List String) (u : String) :
    ((searchDocuments search queries).lookup u =
      (queries.filter (fun q => 3 ≤ wordCount q)).reverse.findSome?
        (fun q => (searchSingleQuery search q).lookup u)) ∧
    (∀ d, (searchDocuments search queries).lookup u = some d →
      d.url = u ∧ d.content ≠ "" ∧ d.url ≠ "" ∧ d.source = "web_search" ∧
      3 ≤ wordCount d.query) := by
  have hmain : (searchDocuments search queries).lookup u =
      (queries.filter (fun q => 3 ≤ wordCount q)).reverse.findSome?
        (fun q => (searchSingleQuery search q).lookup u) := by
    simp only [searchDocuments]
    by_cases hq : queries = []
    · rw [if_pos hq]
      subst hq
      simp
    rw [if_neg hq]
    by_cases hv : queries.filter (fun q => 3 ≤ wordCount q) = []
    · rw [if_pos hv, hv]
      simp
    rw [if_neg hv, lookup_updateFold]
    have hfn : (fun b => (processBatch search b).reverse.lookup u) =
        (fun b => b.reverse.findSome?
          (fun q => (searchSingleQuery search q).lookup u)) := by
      funext b
      rw [reverse_lookup_of_nodup (nodup_keys_processBatch search b) u]
      exact lookup_processBatch search b u
    rw [hfn, findSome?_reverse_flatten, flatten_chunks4]
    cases hres : (queries.filter (fun q => 3 ≤ wordCount q)).reverse.findSome?
        (fun q => (searchSingleQuery search q).lookup u) <;> rfl
  refine ⟨hmain, ?_⟩
  intro d hd
  rw [hmain] at hd
  obtain ⟨q, hq, hlq⟩ := List.exists_of_findSome?_eq_some hd
  have hmem := mem_of_lookup_some hlq
  obtain ⟨h1, h2, h3, h4, h5⟩ := searchSingleQuery_sound search q _ hmem
  have hqv : 3 ≤ wordCount q := by
    have := List.mem_reverse.mp hq
    have := List.mem_filter.mp this
    simpa using this.2
  refine ⟨h1.symm, h2, h3, h5, ?_⟩
  rw [h4]
  exact hqv

/-- A search oracle returning the same URL for two different queries. -/
def searchTwo : String → List SearchResult := fun q =>
  if q = "alpha beta one" then
    [⟨"first", "c1", "https://dup.example/page", ⟨1, 1, by decide, by decide⟩⟩]
  else if q = "alpha beta two" then
    [⟨"second", "c2", "https://dup.example/page", ⟨1, 1, by decide, by decide⟩⟩]
  else []

/-- C4 counterexample: when two queries of one researcher return the same
URL, the recorded document comes from the SECOND query — first-wins fails. -/
theorem search_documents_not_first_wins :
    ((searchDocuments searchTwo ["alpha beta one", "alpha beta two"]).lookup
        "https://dup.example/page").map Doc.query = some "alpha beta two" ∧
      ("alpha beta two" : String) ≠ "alpha beta one" := by
  constructor
  · decide
  · decide

/-- The document of the second query of `searchTwo`. -/
def dupDoc : Doc :=
  mkWebDoc ⟨"second", "c2", "https://dup.example/page",
    ⟨1, 1, by decide, by decide⟩⟩ "alpha beta two"

/-- C4 witness: the merge characterization applied at a concrete input. -/
theorem search_documents_merge_witness :
    dupDoc.url = "https://dup.example/page" ∧ dupDoc.content ≠ "" ∧
      dupDoc.url ≠ "" ∧ dupDoc.source = "web_search" ∧
      3 ≤ wordCount dupDoc.query :=
  (search_documents_merge searchTwo ["alpha beta one", "alpha beta two"]
    "https://dup.example/page").2 dupDoc (by decide)

/-! ## Query generation (`BaseResearcher.generate_queries`)

The streamed model response is the list of nonempty `delta.content` chunks
that arrive before the `stop` chunk, modelled on `List Char`. -/

/-- Python `s.split('\n')` — splitting on an explicit separator keeps empty
parts and always returns at least one part. -/
def splitNl : List Char → List (List Char)
  | [] => [[]]
  | c :: cs =>
    if c = '\n' then [] :: splitNl cs
    else
      match splitNl cs with
      | [] => [[c]]
      | l :: ls => (c :: l) :: ls

/-- ASCII model of Python `str.strip()`. -/
def trimChars (s : List Char) : List Char :=
  ((s.dropWhile Char.isWhitespace).reverse.dropWhile Char.isWhitespace).reverse

/-- One chunk of the streaming loop of `generate_queries`: the chunk is
appended to the running partial; if the partial now contains a newline it
is split, the last part becomes the new partial, and every other part is
stripped and — when nonempty — appended to the harvested queries. -/
def genStep (st : List (List Char) × List Char) (chunk : List Char) :
    List (List Char) × List Char :=
  let cur := st.2 ++ chunk
  if '\n' ∈ cur then
    let parts := splitNl cur
    (st.1 ++ (parts.dropLast.map trimChars).filter (fun q => q ≠ []),
      parts.getLastD [])
  else (st.1, cur)

/-- `BaseResearcher.generate_queries` over the streamed chunks: the final
partial is never added; an empty harvest raises `ValueError`, which the
handler turns into `[]`; otherwise at most the first four queries are
kept. -/
def generateQueries (chunkList : List (List Char)) : List (List Char) :=
  let st := chunkList.foldl genStep ([], [])
  if st.1 = [] then [] else st.1.take 4

/-- The newline-terminated lines of a whole text, stripped and nonempty:
the specification-level description of the harvest. -/
def completeQueries (s : List Char) : List (List Char) :=
  ((splitNl s).dropLast.map trimChars).filter (fun q => q ≠ [])

/-- Gluing helper for `splitNl` over an append: the head of the right part
continues the last line of the left part. -/
def joinHead (x : List Char) : List (List Char) → List (List Char)
  | [] => [x]
  | y :: ys => (x ++ y) :: ys

theorem splitNl_ne_nil : ∀ s : List Char, splitNl s ≠ []
  | [] => by simp [splitNl]
  | c :: cs => by
    rw [splitNl]
    split_ifs
    · simp
    · cases h : splitNl cs <;> simp

theorem joinHead_ne_nil (x : List Char) (l : List (List Char)) :
    joinHead x l ≠ [] := by
  cases l <;> simp [joinHead]

theorem splitNl_of_no_nl {s : List Char} (h : '\n' ∉ s) : splitNl s = [s] := by
  induction s with
  | nil => rfl
  | cons c cs ih =>
    rw [splitNl]
    have hc : ¬ c = '\n' := fun hcc => h (hcc ▸ List.mem_cons_self c cs)
    rw [if_neg hc, ih (fun hm => h (List.mem_cons_of_mem c hm))]

theorem getLastD_cons_ne {x : List Char} {l : List (List Char)}
    (h : l ≠ []) (d : List Char) : (x :: l).getLastD d = l.getLastD d := by
  cases l with
  | nil => exact absurd rfl h
  | cons y ys => simp [List.getLastD_cons]

theorem getLastD_ne_nil_irrel {l : List (List Char)} (h : l ≠ [])
    (a b : List Char) : l.getLastD a = l.getLastD b := by
  rw [List.getLastD_eq_getLast?, List.getLastD_eq_getLast?]
  cases hx : l.getLast? with
  | none =>
    rw [List.getLast?_eq_none_iff] at hx
    exact absurd hx h
  | some x => rfl

theorem getLastD_append_right {l₂ : List (List Char)} (h : l₂ ≠ []) :
    ∀ (l₁ : List (List Char)) (d : List Char),
      (l₁ ++ l₂).getLastD d = l₂.getLastD d := by
  intro l₁
  induction l₁ with
  | nil => intro d; rfl
  | cons x xs ih =>
    intro d
    rw [List.cons_append, List.getLastD_cons, ih]
    exact getLastD_ne_nil_irrel h x d

theorem splitNl_last_no_nl : ∀ s : List Char, '\n' ∉ (splitNl s).getLastD []
  | [] => by simp [splitNl]
  | c :: cs => by
    rw [splitNl]
    split_ifs with hc
    · rw [getLastD_cons_ne (splitNl_ne_nil cs)]
      exact splitNl_last_no_nl cs
    · have hlast := splitNl_last_no_nl cs
      cases hsp : splitNl cs with
      | nil => exact absurd hsp (splitNl_ne_nil cs)
      | cons l ls =>
        cases ls with
        | nil =>
          rw [hsp] at hlast
          simp only [List.getLastD_cons] at hlast ⊢
          intro hm
          rcases List.mem_cons.mp hm with hm | hm
          · exact hc hm.symm
          · exact hlast (by simpa using hm)
        | cons z zs =>
          rw [hsp] at hlast
          rw [getLastD_cons_ne (by simp)]
          rw [getLastD_cons_ne (by simp)] at hlast
          exact hlast

theorem splitNl_append : ∀ (a b : List Char),
    splitNl (a ++ b) =
      (splitNl a).dropLast ++ joinHead ((splitNl a).getLastD []) (splitNl b) := by
  intro a
  induction a with
  | nil =>
    intro b
    cases hb : splitNl b with
    | nil => exact absurd hb (splitNl_ne_nil b)
    | cons y ys =>
      rw [List.nil_append, hb]
      simp [splitNl, joinHead]
  | cons c cs ih =>
    intro b
    by_cases hc : c = '\n'
    · subst hc
      rw [List.cons_append, splitNl, if_pos rfl]
      conv_rhs => rw [splitNl, if_pos rfl]
      rw [ih, List.dropLast_cons_of_ne_nil (splitNl_ne_nil cs),
        getLastD_cons_ne (splitNl_ne_nil cs), List.cons_append]
    · rw [List.cons_append, splitNl, if_neg hc]
      conv_rhs => rw [splitNl, if_neg hc]
      cases hsp : splitNl cs with
      | nil => exact absurd hsp (splitNl_ne_nil cs)
      | cons l ls =>
        have hab := ih b
        rw [hsp] at hab
        cases ls with
        | nil =>
          have hab2 : splitNl (cs ++ b) = joinHead l (splitNl b) := hab
          rw [hab2]
          cases hb : splitNl b with
          | nil => exact absurd hb (splitNl_ne_nil b)
          | cons y ys => rfl
        | cons z zs =>
          have hab2 : splitNl (cs ++ b) =
              l :: ((z :: zs).dropLast ++
                joinHead ((z :: zs).getLastD l) (splitNl b)) := hab
          rw [hab2]
          rfl

/-- Harvest decomposition: the complete lines of `s ++ t` are the complete
lines of `s` followed by the complete lines of the final partial of `s`
glued to `t`; the final partials agree likewise. -/
theorem completeQueries_glue (s t : List Char) :
    completeQueries (s ++ t) =
      completeQueries s ++ completeQueries ((splitNl s).getLastD [] ++ t) ∧
    (splitNl (s ++ t)).getLastD [] =
      (splitNl ((splitNl s).getLastD [] ++ t)).getLastD [] := by
  have hlast := splitNl_last_no_nl s
  have hsub : splitNl ((splitNl s).getLastD [] ++ t) =
      joinHead ((splitNl s).getLastD []) (splitNl t) := by
    rw [splitNl_append, splitNl_of_no_nl hlast]
    rfl
  constructor
  · unfold completeQueries
    rw [splitNl_append s t,
      List.dropLast_append_of_ne_nil _ (joinHead_ne_nil _ _),
      List.map_append, List.filter_append, hsub]
  · rw [splitNl_append s t, getLastD_append_right (joinHead_ne_nil _ _), hsub]

/-- The streaming loop invariant: starting from harvested queries `qs` and
a newline-free partial `cur`, folding the remaining chunks harvests exactly
the complete lines of the full remaining text. -/
theorem genFold : ∀ (chunkList : List (List Char)) (qs : List (List Char))
    (cur : List Char), '\n' ∉ cur →
    chunkList.foldl genStep (qs, cur) =
      (qs ++ completeQueries (cur ++ chunkList.flatten),
       (splitNl (cur ++ chunkList.flatten)).getLastD []) := by
  intro chunkList
  induction chunkList with
  | nil =>
    intro qs cur hcur
    simp only [List.foldl_nil, List.flatten_nil, List.append_nil]
    unfold completeQueries
    rw [splitNl_of_no_nl hcur]
    simp
  | cons chunk rest ih =>
    intro qs cur hcur
    rw [List.foldl_cons]
    by_cases hnl : '\n' ∈ cur ++ chunk
    · have hstep : genStep (qs, cur) chunk =
          (qs ++ completeQueries (cur ++ chunk),
           (splitNl (cur ++ chunk)).getLastD []) := by
        unfold genStep completeQueries
        rw [if_pos hnl]
      rw [hstep, ih _ _ (splitNl_last_no_nl _)]
      have hglue := completeQueries_glue (cur ++ chunk) rest.flatten
      rw [List.flatten_cons, ← List.append_assoc, hglue.1, hglue.2,
        List.append_assoc]
    · have hstep : genStep (qs, cur) chunk = (qs, cur ++ chunk) := by
        unfold genStep
        rw [if_neg hnl]
      rw [hstep, ih _ _ hnl, List.flatten_cons, ← List.append_assoc]

/-- C5 (amended): over any streamed response, query generation returns
exactly the first at-most-4 newline-terminated lines that are nonempty
after stripping, in stream order; a trailing partial that is not
newline-terminated is never returned.  No three-word minimum is applied at
this stage (see the counterexample) — that filter happens later, in
`search_documents`. -/
theorem generate_queries_stream (chunkList : List (List Char)) :
    generateQueries chunkList = (completeQueries chunkList.flatten).take 4 := by
  simp only [generateQueries]
  rw [genFold chunkList [] [] (by simp)]
  simp only [List.nil_append]
  by_cases h : completeQueries chunkList.flatten = []
  · rw [if_pos h, h]
    rfl
  · rw [if_neg h]

/-- C5 counterexample: a one-word line is returned as a query, so the
claimed at-least-3-words filter does not exist in `generate_queries`. -/
theorem generate_queries_no_word_filter :
    "hi".toList ∈ generateQueries ["hi\nalpha beta gamma\n".toList] ∧
      wordCount "hi" < 3 := by
  constructor
  · decide
  · decide

/-! ## Job control plane (`application.py`, `backend/websocket_manager.py`)

Events are the payloads built by `WebSocketManager.send_status_update`;
the `result` dictionary is abstracted as its serialized payload.  The
`job_status` dictionary is a `defaultdict`, but `in` tests do not
materialize entries, and the only write is
`job_status[job_id].update(...)` on the completion path of
`process_research`. -/

/-- A `status_update` event payload. -/
structure StatusEvent where
  status : String
  message : Option String
  error : Option String
  result : Option String
deriving DecidableEq, Repr

/-- One `job_status` entry, restricted to the fields the WebSocket
snapshot reads.  The completion path updates `status`, `report` and
`company` but never the `result` and `error` keys, which keep their
defaults. -/
structure JobRecord where
  status : String
  result : Option String
  error : Option String
deriving DecidableEq, Repr

/-- `websocket_endpoint`: after accepting and registering the connection,
a synthetic `status_update` carrying the stored snapshot is sent iff
`job_id in job_status`; otherwise nothing is sent on connect. -/
def connectEvents (jobStatus : List (String × JobRecord)) (jobId : String) :
    List StatusEvent :=
  match jobStatus.lookup jobId with
  | some st =>
    [{ status := st.status, message := some "Connected to status stream",
       error := st.error, result := st.result }]
  | none => []

/-- The final graph state that `process_research` inspects: the `report`
key, the `report` of the `editor` sub-state, and the `error` key (which no
stage of the pipeline ever writes). -/
structure FinalState where
  report : Option String
  editor_report : Option String
  error : Option String
deriving DecidableEq, Repr

/-- Python truthiness of an optional string (`None` and `''` are falsy). -/
def truthyOpt (o : Option String) : Option String :=
  match o with
  | some s => if s = "" then none else some s
  | none => none

/-- `state.get('report') or (state.get('editor') or {}).get('report')`. -/
def reportContent (s : FinalState) : Option String :=
  (truthyOpt s.report).or s.editor_report

/-- `process_research` after the initial `processing` event: on a truthy
report it emits the `completed` event with the report as result and writes
the `job_status` entry; otherwise it emits a `failed` event with a
non-null error and no result, writing nothing; a raised exception likewise
emits a `failed` event with the exception text.  Returns the emitted
events and the optional `job_status` write. -/
def processResearch (jobId : String) (outcome : Except String FinalState) :
    List StatusEvent × Option (String × JobRecord) :=
  let startEv : StatusEvent :=
    { status := "processing", message := some "Starting research",
      error := none, result := none }
  match outcome with
  | .ok s =>
    match truthyOpt (reportContent s) with
    | some rep =>
      ([startEv,
        { status := "completed",
          message := some "Research completed successfully",
          error := none, result := some rep }],
       some (jobId, { status := "completed", result := none, error := none }))
    | none =>
      ([startEv,
        { status := "failed",
          message := some "Research completed but no report was generated",
          error := some (s.error.getD "No report found"), result := none }],
       none)
  | .error e =>
    ([startEv,
      { status := "failed", message := some ("Research failed: " ++ e),
        error := some e, result := none }],
     none)

/-- C6 (amended): a connecting subscriber receives a synthetic
`status_update` exactly when the job has an entry in `job_status`, and
that event carries the entry status, error and result fields verbatim.
The pipeline materializes an entry only when it completes with a report,
so in-progress (and even failed) jobs yield no snapshot on connect (see
the counterexample). -/
theorem connect_snapshot (jobStatus : List (String × JobRecord))
    (jobId : String) (rec : JobRecord)
    (h : jobStatus.lookup jobId = some rec) :
    connectEvents jobStatus jobId =
      [{ status := rec.status, message := some "Connected to status stream",
         error := rec.error, result := rec.result }] := by
  unfold connectEvents
  rw [h]

/-- The stored record of a completed job. -/
def doneRecord : JobRecord :=
  { status := "completed", result := none, error := none }

/-- C6 witness: the snapshot of a completed job. -/
theorem connect_snapshot_witness :
    connectEvents [("job1", doneRecord)] "job1" =
      [{ status := "completed", message := some "Connected to status stream",
         error := none, result := none }] :=
  connect_snapshot [("job1", doneRecord)] "job1" doneRecord rfl

/-- C6 counterexample: a submitted job that is still in progress has no
`job_status` entry (the map starts empty and even the failure path of
`process_research` writes nothing), so the connecting subscriber receives
no synthetic `status_update` at all — its first event is not a snapshot. -/
theorem connect_no_snapshot_in_progress :
    connectEvents [] "job1" = [] ∧
      (processResearch "job1" (Except.error "boom")).2 = none := by
  constructor
  · rfl
  · rfl

/-- C8: when a job ends in failure — the pipeline raised, or it finished
without a truthy report — the terminal `status_update` has status
`failed`, a non-null error, and a null result. -/
theorem failed_job_terminal_event (jobId : String)
    (outcome : Except String FinalState)
    (hfail : ∀ s, outcome = .ok s → truthyOpt (reportContent s) = none) :
    ∃ ev, (processResearch jobId outcome).1.getLast? = some ev ∧
      ev.status = "failed" ∧ ev.error.isSome = true ∧ ev.result = none := by
  cases outcome with
  | error e => exact ⟨_, rfl, rfl, rfl, rfl⟩
  | ok s =>
    have h := hfail s rfl
    simp only [processResearch]
    rw [h]
    exact ⟨_, rfl, rfl, rfl, rfl⟩

/-- C8 witness: the pipeline raising an exception yields the failed
terminal event. -/
theorem failed_job_terminal_event_witness :
    ∃ ev, (processResearch "job1" (Except.error "boom")).1.getLast? =
        some ev ∧ ev.status = "failed" ∧ ev.error.isSome = true ∧
        ev.result = none :=
  failed_job_terminal_event "job1" (Except.error "boom") (fun _ h => nomatch h)

/-! ## Grounding (`backend/nodes/grounding.py`)

The Tavily extract call is an oracle returning either an exception message
or the list of `raw_content` fields of the result items.  The presence of
the websocket manager together with the job id is modelled as one flag. -/

/-- The input state of the grounding node. -/
structure InputState where
  company : Option String
  company_url : Option String
  hq_location : Option String
  industry : Option String
deriving DecidableEq, Repr

/-- The research state returned by `GroundingNode.initial_search`
(websocket passthrough fields aside). -/
structure GroundState where
  company : Option String
  company_url : Option String
  hq_location : Option String
  industry : Option String
  messages : List String
  site_scrape : Option (String × String)
deriving DecidableEq, Repr

/-- A status update sent by the grounding node. -/
structure GroundEvent where
  status : String
  message : String
deriving DecidableEq, Repr

/-- The HQ and industry context lines appended to the progress note. -/
def contextMsg (inp : InputState) : String :=
  (match inp.hq_location with
   | some hq => "\n📍 Company HQ: " ++ hq
   | none => "") ++
  (match inp.industry with
   | some ind => "\n🏭 Industry: " ++ ind
   | none => "")

/-- The `raw_contents` accumulation loop over the extraction result items:
only truthy (present and nonempty) `raw_content` fields are kept. -/
def truthyContents (items : List (Option String)) : List String :=
  items.filterMap (fun c =>
    match c with
    | some s => if s = "" then none else some s
    | none => none)

/-- `GroundingNode.initial_search`: extraction happens only when a URL is
present; a raised extraction error is caught and reported as a status
event with status `failed` while the function still returns normally; the
returned state copies the four input fields, stores the site scrape only
when some nonempty raw content came back, and carries the progress note as
its single message. -/
def initialSearch (inp : InputState) (hasWs : Bool)
    (extract : Except String (List (Option String))) :
    GroundState × List GroundEvent :=
  let company := inp.company.getD "Unknown Company"
  let msg0 := "🎯 Initiating research for " ++ company ++ "...\n"
  let ev0 : List GroundEvent :=
    if hasWs then [⟨"processing", "🎯 Initiating research for " ++ company⟩]
    else []
  let base : GroundState :=
    { company := inp.company, company_url := inp.company_url,
      hq_location := inp.hq_location, industry := inp.industry,
      messages := [], site_scrape := none }
  match inp.company_url with
  | some url =>
    let msg1 := msg0 ++ "\n🌐 Analyzing company website: " ++ url
    let ev1 : List GroundEvent :=
      ev0 ++ if hasWs then [⟨"processing", "🌐 Analyzing company website"⟩]
        else []
    match extract with
    | .ok items =>
      let rawContents := truthyContents items
      if rawContents ≠ [] then
        ({ base with
            site_scrape := some (company, String.intercalate "\n\n" rawContents),
            messages := [msg1 ++ "\n✅ Successfully extracted content from website" ++
              contextMsg inp] },
         ev1 ++ if hasWs then
           [⟨"processing", "Successfully extracted content from website"⟩]
         else [])
      else
        ({ base with
            messages := [msg1 ++ "\n⚠️ No content found in website extraction" ++
              contextMsg inp] },
         ev1 ++ if hasWs then
           [⟨"processing", "⚠️ No content found in provided URL"⟩]
         else [])
    | .error e =>
      ({ base with
          messages := [msg1 ++ "\n⚠️ Error extracting website content: " ++ e ++
            contextMsg inp] },
       ev1 ++ if hasWs then
         [⟨"failed", "⚠️ Error extracting website content"⟩]
       else [])
  | none =>
    ({ base with
        messages := [msg0 ++
          "\n⏩ No company URL provided, proceeding directly to research phase" ++
          contextMsg inp] },
     ev0 ++ if hasWs then
       [⟨"processing",
         "No company URL provided, proceeding directly to research phase"⟩]
     else [])

/-- C7 (amended): grounding always returns a state — the four input
fields are carried over unchanged and a single first `messages` entry is
present; when extraction raises, or succeeds but yields no truthy raw
content, `site_scrape` stays empty while the function still returns
normally so the pipeline proceeds; but on a raised extraction error the
emitted status event has status `failed` (carrying only a message, no
error payload), not a mere warning status (see the counterexample against
the claim as stated). -/
theorem grounding_returns_state (inp : InputState) (hasWs : Bool)
    (extract : Except String (List (Option String))) :
    ((initialSearch inp hasWs extract).1.company = inp.company ∧
     (initialSearch inp hasWs extract).1.company_url = inp.company_url ∧
     (initialSearch inp hasWs extract).1.hq_location = inp.hq_location ∧
     (initialSearch inp hasWs extract).1.industry = inp.industry ∧
     (initialSearch inp hasWs extract).1.messages.length = 1) ∧
    (∀ e, extract = .error e →
      (initialSearch inp hasWs extract).1.site_scrape = none) ∧
    (∀ items, extract = .ok items → truthyContents items = [] →
      (initialSearch inp hasWs extract).1.site_scrape = none) ∧
    (∀ e url, extract = .error e → inp.company_url = some url → hasWs = true →
      (⟨"failed", "⚠️ Error extracting website content"⟩ : GroundEvent) ∈
        (initialSearch inp hasWs extract).2) := by
  refine ⟨?_, ?_, ?_, ?_⟩
  · cases hcu : inp.company_url with
    | none => cases extract <;> simp [initialSearch, hcu]
    | some url =>
      cases extract with
      | error e => simp [initialSearch, hcu]
      | ok items =>
        simp only [initialSearch, hcu]
        split_ifs <;> simp
  · intro e he
    subst he
    cases hcu : inp.company_url <;> simp [initialSearch, hcu]
  · intro items he hraw
    subst he
    cases hcu : inp.company_url with
    | none => simp [initialSearch, hcu]
    | some url =>
      simp only [initialSearch, hcu]
      split_ifs <;> simp_all
  · intro e url he hcu hws
    subst he
    subst hws
    simp [initialSearch, hcu]

/-- A grounding input with a company URL. -/
def groundInput : InputState :=
  { company := some "Acme", company_url := some "https://acme.example",
    hq_location := none, industry := none }

/-- C7 counterexample: when the website extraction raises, the emitted
status event has status `failed` — not a warning — even though the node
returns normally and the pipeline proceeds. -/
theorem grounding_failed_status_event :
    (⟨"failed", "⚠️ Error extracting website content"⟩ : GroundEvent) ∈
      (initialSearch groundInput true (Except.error "boom")).2 ∧
      "failed" ≠ "processing" := by
  constructor
  · decide
  · decide

/-- C7 witness: the amended facts at a concrete failing extraction and at
a concrete extraction that succeeds with no truthy raw content. -/
theorem grounding_returns_state_witness :
    (initialSearch groundInput true (Except.error "boom")).1.site_scrape =
        none ∧
      (initialSearch groundInput true
        (Except.ok [some "", none])).1.site_scrape = none ∧
      (initialSearch groundInput true (Except.error "boom")).1.company =
        some "Acme" :=
  ⟨(grounding_returns_state groundInput true (Except.error "boom")).2.1
      "boom" rfl,
    (grounding_returns_state groundInput true
        (Except.ok [some "", none])).2.2.1 [some "", none] rfl (by decide),
    (grounding_returns_state groundInput true (Except.error "boom")).1.1⟩

/-! ## Enricher (`backend/nodes/enricher.py`)

The extraction service is an oracle `fetch : String → String` giving the
raw content `fetch_single_content` ends up with for a URL — the empty
string on failure or when the service returns no results (the batching of
`fetch_raw_content` only groups the calls and does not change the result
dictionary). -/

/-- `not doc.get('raw_content')`: the document still needs full text. -/
def needsContent (d : Doc) : Bool :=
  match d.raw_content with
  | none => true
  | some s => s = ""

/-- `curated_docs[url]['raw_content'] = raw_content`: update the document
stored under a URL in place. -/
def dictSetRaw (m : List (String × Doc)) (url rc : String) :
    List (String × Doc) :=
  m.map (fun p =>
    if p.1 = url then (p.1, { p.2 with raw_content := some rc }) else p)

/-- `Enricher.enrich_data` for one curated map: documents without raw
content are fetched, and each nonempty fetched text is written back into
the dictionary. -/
def enrichDocs (fetch : String → String) (docs : List (String × Doc)) :
    List (String × Doc) :=
  if docs = [] then docs
  else
    let needing := docs.filter (fun p => needsContent p.2)
    if needing = [] then docs
    else
      let rawContents := needing.map (fun p => (p.1, fetch p.1))
      rawContents.foldl
        (fun m pr => if pr.2 ≠ "" then dictSetRaw m pr.1 pr.2 else m) docs

/-- The cumulative effect of the write-back loop on a single entry. -/
def applyAll (prs : List (String × String)) (q : String × Doc) :
    String × Doc :=
  prs.foldl (fun q pr =>
    if pr.2 ≠ "" ∧ q.1 = pr.1 then
      (q.1, { q.2 with raw_content := some pr.2 })
    else q) q

theorem applyAll_skip (prs : List (String × String)) (q : String × Doc)
    (h : ∀ pr ∈ prs, pr.1 ≠ q.1 ∨ pr.2 = "") : applyAll prs q = q := by
  induction prs with
  | nil => rfl
  | cons pr rest ih =>
    have hcond : ¬ (pr.2 ≠ "" ∧ q.1 = pr.1) := by
      rcases h pr (List.mem_cons_self pr rest) with h' | h'
      · intro hc
        exact h' hc.2.symm
      · intro hc
        exact hc.1 h'
    have hstep : applyAll (pr :: rest) q = applyAll rest q := by
      unfold applyAll
      rw [List.foldl_cons, if_neg hcond]
    rw [hstep]
    exact ih (fun x hx => h x (List.mem_cons_of_mem pr hx))

/-- What a single write-back pass does to an entry, as a function of the
raw content looked up for its key. -/
def applyOne (q : String × Doc) : Option String → String × Doc
  | some rc => if rc ≠ "" then (q.1, { q.2 with raw_content := some rc }) else q
  | none => q

theorem applyAll_lookup (prs : List (String × String)) (q : String × Doc)
    (hnd : (prs.map Prod.fst).Nodup) :
    applyAll prs q = applyOne q (prs.lookup q.1) := by
  induction prs with
  | nil => rfl
  | cons pr rest ih =>
    obtain ⟨a, b⟩ := pr
    simp only [List.map_cons, List.nodup_cons] at hnd
    obtain ⟨hpr, hrest⟩ := hnd
    have hstep : applyAll ((a, b) :: rest) q = applyAll rest
        (if b ≠ "" ∧ q.1 = a then
          (q.1, { q.2 with raw_content := some b }) else q) := by
      unfold applyAll
      rw [List.foldl_cons]
    by_cases hk : q.1 = a
    · have hlk : ((a, b) :: rest).lookup q.1 = some b := by
        rw [List.lookup_cons]
        have hbeq : (q.1 == a) = true := by simp [hk]
        rw [hbeq]
      rw [hlk]
      simp only [applyOne]
      have hout : ∀ x ∈ rest, x.1 ≠ q.1 ∨ x.2 = "" := by
        intro x hx
        left
        intro hxe
        have hxin : x.1 ∈ List.map Prod.fst rest :=
          List.mem_map_of_mem Prod.fst hx
        rw [hxe, hk] at hxin
        exact hpr hxin
      by_cases hv : b = ""
      · rw [hstep, if_neg (by tauto), if_neg (by simp [hv])]
        exact applyAll_skip rest q hout
      · rw [hstep, if_pos ⟨hv, hk⟩, if_pos hv]
        exact applyAll_skip rest _ hout
    · have hlk : ((a, b) :: rest).lookup q.1 = rest.lookup q.1 := by
        rw [List.lookup_cons]
        have hbeq : (q.1 == a) = false := by simp [hk]
        rw [hbeq]
      rw [hlk, hstep, if_neg (by tauto)]
      exact ih hrest

theorem lookup_keyed_map (l : List (String × Doc)) (f : String → String)
    (k : String) :
    (l.map (fun p => (p.1, f p.1))).lookup k =
      (l.lookup k).map (fun _ => f k) := by
  induction l with
  | nil => rfl
  | cons p ps ih =>
    obtain ⟨a, b⟩ := p
    simp only [List.map_cons]
    cases hab : (k == a) with
    | false =>
      rw [List.lookup_cons, List.lookup_cons, hab]
      exact ih
    | true =>
      have hka : k = a := by simpa using hab
      subst hka
      simp [List.lookup_cons]

theorem key_inj {l : List (String × Doc)} (h : (l.map Prod.fst).Nodup)
    {p q : String × Doc} (hp : p ∈ l) (hq : q ∈ l) (hk : p.1 = q.1) :
    p = q := by
  induction l with
  | nil => simp at hp
  | cons a as ih =>
    simp only [List.map_cons, List.nodup_cons] at h
    obtain ⟨ha, has⟩ := h
    rcases List.mem_cons.mp hp with rfl | hp'
    · rcases List.mem_cons.mp hq with rfl | hq'
      · rfl
      · have := List.mem_map_of_mem Prod.fst hq'
        rw [← hk] at this
        exact absurd this ha
    · rcases List.mem_cons.mp hq with rfl | hq'
      · have := List.mem_map_of_mem Prod.fst hp'
        rw [hk] at this
        exact absurd this ha
      · exact ih has hp' hq'

theorem fold_setRaw_map (docs : List (String × Doc)) :
    ∀ (prs : List (String × String)) (g : String × Doc → String × Doc),
      prs.foldl (fun m pr => if pr.2 ≠ "" then dictSetRaw m pr.1 pr.2 else m)
        (docs.map g) =
      docs.map (fun p => applyAll prs (g p)) := by
  intro prs
  induction prs with
  | nil => intro g; rfl
  | cons pr rest ih =>
    intro g
    rw [List.foldl_cons]
    by_cases hv : pr.2 ≠ ""
    · rw [if_pos hv]
      have hset : dictSetRaw (docs.map g) pr.1 pr.2 =
          docs.map (fun p =>
            if (g p).1 = pr.1 then
              ((g p).1, { (g p).2 with raw_content := some pr.2 })
            else g p) := by
        unfold dictSetRaw
        rw [List.map_map]
        rfl
      rw [hset, ih]
      apply List.map_congr_left
      intro p _
      have hcons : applyAll (pr :: rest) (g p) = applyAll rest
          (if pr.2 ≠ "" ∧ (g p).1 = pr.1 then
            ((g p).1, { (g p).2 with raw_content := some pr.2 })
          else g p) := by
        unfold applyAll
        rw [List.foldl_cons]
      rw [hcons]
      congr 1
      by_cases hgp : (g p).1 = pr.1
      · rw [if_pos hgp, if_pos ⟨hv, hgp⟩]
      · rw [if_neg hgp, if_neg (by tauto)]
    · rw [if_neg hv, ih]
      apply List.map_congr_left
      intro p _
      have hv' : pr.2 = "" := by simpa using hv
      have hcons : applyAll (pr :: rest) (g p) = applyAll rest (g p) := by
        unfold applyAll
        rw [List.foldl_cons, if_neg (by simp [hv'])]
      rw [hcons]

/-- The enrichment loop, expressed pointwise: each entry gets raw content
exactly when it needed content and the fetch returned nonempty text. -/
theorem enrich_map_eq (fetch : String → String) (docs : List (String × Doc))
    (hnd : (docs.map Prod.fst).Nodup) :
    enrichDocs fetch docs =
      docs.map (fun p =>
        if needsContent p.2 ∧ fetch p.1 ≠ "" then
          (p.1, { p.2 with raw_content := some (fetch p.1) })
        else p) := by
  unfold enrichDocs
  by_cases hd : docs = []
  · rw [if_pos hd, hd]
    rfl
  rw [if_neg hd]
  by_cases hn : docs.filter (fun p => needsContent p.2) = []
  · rw [if_pos hn]
    symm
    have hpt : ∀ p ∈ docs,
        (if needsContent p.2 ∧ fetch p.1 ≠ "" then
          (p.1, { p.2 with raw_content := some (fetch p.1) })
        else p) = (fun p => p) p := by
      intro p hp
      have hnp := List.filter_eq_nil_iff.mp hn p hp
      rw [if_neg (fun h : needsContent p.2 = true ∧ fetch p.1 ≠ "" =>
        hnp h.1)]
    rw [List.map_congr_left hpt]
    exact List.map_id' docs
  rw [if_neg hn]
  have hfold := fold_setRaw_map docs
    ((docs.filter (fun p => needsContent p.2)).map (fun p => (p.1, fetch p.1)))
    id
  rw [List.map_id] at hfold
  rw [hfold]
  apply List.map_congr_left
  intro p hp
  have hndraw : ((((docs.filter (fun p => needsContent p.2)).map
      (fun p => (p.1, fetch p.1))).map Prod.fst)).Nodup := by
    have hkeys : (((docs.filter (fun p => needsContent p.2)).map
        (fun p => (p.1, fetch p.1))).map Prod.fst) =
        (docs.filter (fun p => needsContent p.2)).map Prod.fst := by
      rw [List.map_map]
      rfl
    rw [hkeys]
    exact hnd.sublist (List.Sublist.map Prod.fst (List.filter_sublist docs))
  simp only [id_eq]
  rw [applyAll_lookup _ _ hndraw, lookup_keyed_map]
  by_cases hneed : needsContent p.2 = true
  · have hsome : ∃ v, (docs.filter (fun p => needsContent p.2)).lookup p.1 =
        some v := by
      cases hl : (docs.filter (fun p => needsContent p.2)).lookup p.1 with
      | none =>
        rw [lookup_none_iff_not_mem_keys] at hl
        exact absurd (List.mem_map_of_mem Prod.fst
          (List.mem_filter.mpr ⟨hp, hneed⟩)) hl
      | some v => exact ⟨v, rfl⟩
    obtain ⟨v, hv⟩ := hsome
    rw [hv, Option.map_some']
    simp only [applyOne]
    by_cases hf : fetch p.1 = ""
    · rw [if_neg (by simp [hf]), if_neg (fun h => h.2 hf)]
    · rw [if_pos hf, if_pos ⟨hneed, hf⟩]
  · have hnone : (docs.filter (fun p => needsContent p.2)).lookup p.1 =
        none := by
      rw [lookup_none_iff_not_mem_keys]
      intro hmem
      rw [List.mem_map] at hmem
      obtain ⟨q, hq, hq1⟩ := hmem
      have hqdocs := List.mem_of_mem_filter hq
      have hqneed : needsContent q.2 = true := (List.mem_filter.mp hq).2
      have hqp : q = p := key_inj hnd hqdocs hp hq1
      rw [hqp] at hqneed
      exact hneed hqneed
    rw [hnone, Option.map_none']
    simp only [applyOne]
    rw [if_neg (fun h => hneed h.1)]

/-- C10: enrichment preserves the key list of a curated map; every field
other than `raw_content` of every document is unchanged; `raw_content` is
written only into documents whose raw content was missing or empty and
only when the fetch returned nonempty text; a document that already had
raw content is returned unchanged. -/
theorem enricher_frame (fetch : String → String) (docs : List (String × Doc))
    (hnd : (docs.map Prod.fst).Nodup) :
    ((enrichDocs fetch docs).map Prod.fst = docs.map Prod.fst) ∧
    List.Forall₂ (fun p q : String × Doc =>
      q.1 = p.1 ∧ q.2.title = p.2.title ∧ q.2.content = p.2.content ∧
      q.2.query = p.2.query ∧ q.2.url = p.2.url ∧ q.2.source = p.2.source ∧
      q.2.score = p.2.score ∧ q.2.doc_type = p.2.doc_type ∧
      q.2.evaluation = p.2.evaluation ∧
      (needsContent p.2 = false → q = p) ∧
      (q.2.raw_content = p.2.raw_content ∨
        (needsContent p.2 = true ∧ fetch p.1 ≠ "" ∧
          q.2.raw_content = some (fetch p.1))))
      docs (enrichDocs fetch docs) := by
  rw [enrich_map_eq fetch docs hnd]
  constructor
  · rw [List.map_map]
    apply List.map_congr_left
    intro p _
    simp only [Function.comp]
    split_ifs <;> rfl
  · clear hnd
    induction docs with
    | nil => exact List.Forall₂.nil
    | cons p ps ih =>
      rw [List.map_cons]
      refine List.Forall₂.cons ?_ ih
      by_cases h : needsContent p.2 ∧ fetch p.1 ≠ ""
      · rw [if_pos h]
        refine ⟨rfl, rfl, rfl, rfl, rfl, rfl, rfl, rfl, rfl, ?_, ?_⟩
        · intro hf
          have := h.1
          rw [hf] at this
          exact absurd this (by simp)
        · exact Or.inr ⟨h.1, h.2, rfl⟩
      · rw [if_neg h]
        exact ⟨rfl, rfl, rfl, rfl, rfl, rfl, rfl, rfl, rfl, fun _ => rfl,
          Or.inl rfl⟩

/-- C10 witness: the frame facts at a concrete curated map and fetch. -/
theorem enricher_frame_witness :
    (enrichDocs (fun _ => "full text")
        [("https://a.com/x", sampleDoc)]).map Prod.fst =
      [("https://a.com/x", sampleDoc)].map Prod.fst :=
  (enricher_frame (fun _ => "full text") [("https://a.com/x", sampleDoc)]
    (by decide)).1

end CompanyResearch
